import Mathlib

/-!
Verification of the cron-expression translator of this repository
(`src/cron.rs`).  The translator is a pure function from an input string to
either a normalized schedule descriptor, a descriptive failure, or (as the
proofs below show, on some malformed stepped-range inputs) divergence.

Strings are modelled as lists of characters (`Str`).  Rust's string
primitives (`trim`, `split`, `split_once`, `to_lowercase`, `starts_with`,
`strip_prefix`, `strip_suffix`, `u32::from_str`) are re-implemented below
with their Rust semantics; case mapping and whitespace classification are
modelled for the ASCII range, which is the range the translator's grammar
uses.  `u32` arithmetic in the stepped-range loop is modelled with the
release-profile wrapping semantics (`% 2^32`).  The `while` loop of the
stepped-range expansion is modelled with explicit fuel; `Res.hang` marks
fuel exhaustion, and the lemmas `stepLoop_zero_none` / `stepLoop_run` /
`stepLoop_full` below relate the fuel supplied by `parse_single_element`
to the loop's real behaviour: with a positive step and no wrap-around the
fuel always suffices, while with step 0 the loop returns `none` for every
amount of fuel, i.e. it genuinely diverges.  A failing `unwrap` is
modelled by `Res.panicked`.
-/

namespace Cron

/-- Strings as character lists. -/
abbrev Str := List Char

/-- String literal helper. -/
def strL (s : String) : Str := s.toList

/-- ASCII whitespace (model of Rust `char::is_whitespace` on the ASCII range). -/
def isWs (c : Char) : Bool :=
  c == ' ' || c == '\t' || c == '\n' || c == '\r' || c == '\x0b' || c == '\x0c'

/-- ASCII lower-casing of one character (model of Rust `to_lowercase`). -/
def toLowerChar (c : Char) : Char :=
  if 'A' ≤ c ∧ c ≤ 'Z' then Char.ofNat (c.toNat + 32) else c

/-- ASCII lower-casing of a string. -/
def toLower (s : Str) : Str := s.map toLowerChar

/-- Rust `str::starts_with(char)`. -/
def startsWithChar (c : Char) (s : Str) : Bool :=
  match s with
  | [] => false
  | d :: _ => d == c

/-- Rust `str::starts_with(&str)`. -/
def isPre (p s : Str) : Bool := List.isPrefixOf p s

/-- Rust `str::strip_prefix`. -/
def stripPre (p s : Str) : Option Str :=
  if isPre p s then some (s.drop p.length) else none

/-- Rust `str::strip_suffix`. -/
def stripSuf (p s : Str) : Option Str :=
  if List.isSuffixOf p s then some (s.take (s.length - p.length)) else none

/-- Rust `str::split(char)` (keeps empty fragments, result is never empty). -/
def splitC (sep : Char) : Str → List Str
  | [] => [[]]
  | c :: rest =>
    match splitC sep rest with
    | [] => [[c]]
    | h :: t => if c == sep then [] :: h :: t else (c :: h) :: t

/-- Rust `str::split_once(char)`: split at the first occurrence. -/
def splitOnceC (sep : Char) : Str → Option (Str × Str)
  | [] => none
  | c :: rest =>
    if c == sep then some ([], rest)
    else
      match splitOnceC sep rest with
      | some (a, b) => some (c :: a, b)
      | none => none

/-- Drop leading whitespace. -/
def trimLeft (s : Str) : Str := s.dropWhile (fun c => isWs c)

/-- Drop trailing whitespace. -/
def trimRight (s : Str) : Str := (s.reverse.dropWhile (fun c => isWs c)).reverse

/-- Rust `str::trim`. -/
def trim (s : Str) : Str := trimLeft (trimRight s)

/-- Accumulator-based splitter behind `splitWs`. -/
def splitWsAux : Str → Str → List Str
  | [], acc => if acc.isEmpty then [] else [acc.reverse]
  | c :: rest, acc =>
    if isWs c then
      if acc.isEmpty then splitWsAux rest [] else acc.reverse :: splitWsAux rest []
    else splitWsAux rest (c :: acc)

/-- Rust `str::split_whitespace` (split on whitespace runs, drop empties). -/
def splitWs (s : Str) : List Str := splitWsAux s []

/-- Decimal digit character. -/
def digitChar (n : Nat) : Char := Char.ofNat (48 + n)

/-- Structural worker for `natToStr` (fuel is always sufficient, see
`natToStrGo_eq`). -/
def natToStrGo : Nat → Nat → Str → Str
  | 0, _, acc => acc
  | fuel + 1, n, acc =>
    if n < 10 then digitChar n :: acc
    else natToStrGo fuel (n / 10) (digitChar (n % 10) :: acc)

/-- Decimal rendering of a natural number (Rust `{}` formatting of `u32`). -/
def natToStr (n : Nat) : Str := natToStrGo (n + 1) n []

/-- Well-founded twin of `natToStr`, convenient for induction. -/
def natToStrW (n : Nat) : Str :=
  if _h : n < 10 then [digitChar n]
  else natToStrW (n / 10) ++ [digitChar (n % 10)]
termination_by n
decreasing_by
  simp_wf
  exact Nat.div_lt_self (by omega) (by omega)

/-- Numeric value of a decimal digit character. -/
def charDigit (c : Char) : Option Nat :=
  if '0' ≤ c ∧ c ≤ '9' then some (c.toNat - 48) else none

/-- Left-to-right accumulation of decimal digits; `none` on a non-digit. -/
def digitsValAux : Str → Nat → Option Nat
  | [], acc => some acc
  | c :: rest, acc =>
    match charDigit c with
    | some d => digitsValAux rest (acc * 10 + d)
    | none => none

/-- 2^32, the modulus of `u32`. -/
def U32MOD : Nat := 4294967296

/-- Strip one leading plus sign, as `u32::from_str` does. -/
def stripPlusOne (s : Str) : Str :=
  match s with
  | c :: rest => if c == '+' then rest else s
  | [] => s

/-- Rust `u32::from_str`: optional leading plus sign, then decimal digits,
rejecting the empty string and values that overflow `u32`. -/
def parseU32E (s : Str) : Except Str Nat :=
  if s.isEmpty then .error (strL "cannot parse integer from empty string")
  else
    let body := stripPlusOne s
    if body.isEmpty then .error (strL "invalid digit found in string")
    else
      match digitsValAux body 0 with
      | none => .error (strL "invalid digit found in string")
      | some v =>
        if v < U32MOD then .ok v
        else .error (strL "number too large to fit in target type")

/-- Rust `s.parse::<u32>().ok()`. -/
def parseU32 (s : Str) : Option Nat := (parseU32E s).toOption

/-- Outcome of running a piece of the translator: a value, a propagated
error (`anyhow::Result::Err`), divergence of the stepped-range loop, or a
panic (a failed `unwrap`). -/
inductive Res (α : Type) where
  | ok (a : α)
  | err (e : Str)
  | hang
  | panicked (msg : Str)
deriving DecidableEq

/-- Sequencing in the `Res` model (Rust `?` plus panic/divergence
propagation). -/
def Res.bind {α β : Type} : Res α → (α → Res β) → Res β
  | .ok a, f => f a
  | .err e, _ => .err e
  | .hang, _ => .hang
  | .panicked m, _ => .panicked m

/-! ## The translator (`src/cron.rs`) -/

/-- `DOW_NAMES`: the canonical three-letter weekday names. -/
def DOW_NAMES : List Str :=
  [strL "Sun", strL "Mon", strL "Tue", strL "Wed", strL "Thu", strL "Fri", strL "Sat"]

/-- `DOW_FULL_NAMES`: the full lowercase weekday names. -/
def DOW_FULL_NAMES : List Str :=
  [strL "sunday", strL "monday", strL "tuesday", strL "wednesday", strL "thursday",
   strL "friday", strL "saturday"]

/-- The indexed iteration over `DOW_FULL_NAMES` paired with `DOW_NAMES`
(the Rust code iterates with `enumerate` and indexes `DOW_NAMES[i]`). -/
def DOW_TABLE : List (Str × Str) := DOW_FULL_NAMES.zip DOW_NAMES

/-- `CronSchedule`: the translator's output record. -/
structure CronSchedule where
  on_calendar : Option Str
  on_boot_sec : Option Str
  is_service : Bool
  display : Option Str
deriving DecidableEq

/-- `parse_special`: the classic whole-string shorthand table. -/
def parse_special (expr : Str) : Option CronSchedule :=
  if expr == strL "@yearly" || expr == strL "@annually" then
    some ⟨some (strL "*-01-01 00:00:00"), none, false, some (strL "@yearly")⟩
  else if expr == strL "@monthly" then
    some ⟨some (strL "*-*-01 00:00:00"), none, false, some (strL "@monthly")⟩
  else if expr == strL "@weekly" then
    some ⟨some (strL "Mon *-*-* 00:00:00"), none, false, some (strL "@weekly")⟩
  else if expr == strL "@daily" || expr == strL "@midnight" then
    some ⟨some (strL "*-*-* 00:00:00"), none, false, some (strL "@daily")⟩
  else if expr == strL "@hourly" then
    some ⟨some (strL "*-*-* *:00:00"), none, false, some (strL "@hourly")⟩
  else if expr == strL "@reboot" then
    some ⟨none, some (strL "1min"), false, some (strL "@reboot")⟩
  else if expr == strL "@service" then
    some ⟨none, none, true, some (strL "@service")⟩
  else none

/-- `is_weekday_keyword`: does `@name` denote a weekday (full-name match,
full-name prefix of length at least 3, or exact lowercase short name)? -/
def is_weekday_keyword (keyword : Str) : Bool :=
  match stripPre (strL "@") keyword with
  | none => false
  | some name =>
    DOW_FULL_NAMES.any (fun full => full == name || (decide (3 ≤ name.length) && isPre name full))
    || DOW_NAMES.any (fun shortN => toLower shortN == name)

/-- `try_parse_ordinal_any`: parse `@<n><st|nd|rd|th>` without a range check. -/
def try_parse_ordinal_any (keyword : Str) : Option Nat :=
  match stripPre (strL "@") keyword with
  | none => none
  | some s =>
    match stripSuf (strL "st") s <|> stripSuf (strL "nd") s <|>
          stripSuf (strL "rd") s <|> stripSuf (strL "th") s with
    | none => none
    | some numStr => parseU32 numStr

/-- `try_parse_ordinal`: parse `@<n><suffix>` and require `1 ≤ n ≤ 31`. -/
def try_parse_ordinal (keyword : Str) : Option Nat :=
  match stripPre (strL "@") keyword with
  | none => none
  | some s =>
    match stripSuf (strL "st") s <|> stripSuf (strL "nd") s <|>
          stripSuf (strL "rd") s <|> stripSuf (strL "th") s with
    | none => none
    | some numStr =>
      match parseU32 numStr with
      | none => none
      | some n => if 1 ≤ n ∧ n ≤ 31 then some n else none

/-- First-match lookup over the full-name/short-name table: entry condition
`full == name || full.starts_with(name)`. -/
def dowLookupFull : List (Str × Str) → Str → Option Str
  | [], _ => none
  | (full, shortN) :: rest, name =>
    if full == name || isPre name full then some shortN else dowLookupFull rest name

/-- First-match lookup over the short names: condition
`short.to_lowercase() == name`. -/
def dowLookupShortEq : List Str → Str → Option Str
  | [], _ => none
  | shortN :: rest, name =>
    if toLower shortN == name then some shortN else dowLookupShortEq rest name

/-- First-match lookup over the short names used by `dow_to_name`:
condition `name.to_lowercase() == lower || name.to_lowercase().starts_with(&lower)`. -/
def dowLookupShortPre : List Str → Str → Option Str
  | [], _ => none
  | shortN :: rest, lower =>
    if toLower shortN == lower || isPre lower (toLower shortN) then some shortN
    else dowLookupShortPre rest lower

/-- `try_parse_dow_keyword`: resolve `@<weekday>` to a canonical short name. -/
def try_parse_dow_keyword (keyword : Str) : Option Str :=
  match stripPre (strL "@") keyword with
  | none => none
  | some name =>
    match dowLookupFull DOW_TABLE name with
    | some d => some d
    | none => dowLookupShortEq DOW_NAMES name

/-- `parse_dow_name`: resolve a weekday token of the extended shorthand. -/
def parse_dow_name (s : Str) : Res Str :=
  let lower := toLower s
  match dowLookupFull DOW_TABLE lower with
  | some d => .ok d
  | none =>
    match dowLookupShortEq DOW_NAMES lower with
    | some d => .ok d
    | none => .err (strL "Invalid day of week: " ++ s)

/-- `ordinal`: English ordinal rendering (`1` to `"1st"` and so on). -/
def ordinal (n : Nat) : Str :=
  let suffix :=
    if n % 10 = 1 ∧ n % 100 ≠ 11 then strL "st"
    else if n % 10 = 2 ∧ n % 100 ≠ 12 then strL "nd"
    else if n % 10 = 3 ∧ n % 100 ≠ 13 then strL "rd"
    else strL "th"
  natToStr n ++ suffix

/-- Rust `{:02}` / `{:0>2}` formatting: zero-pad to at least two digits. -/
def pad2 (n : Nat) : Str :=
  let s := natToStr n
  if s.length < 2 then '0' :: s else s

/-- `format_time`: minimal display of a time, minute omitted when zero. -/
def format_time (hour minute : Nat) : Str :=
  if minute = 0 then natToStr hour
  else natToStr hour ++ ':' :: pad2 minute

/-- `format_time_display`. -/
def format_time_display (pre : Str) (hour minute : Nat) : Str :=
  pre ++ '/' :: format_time hour minute

/-- `parse_time_spec`: `"H"` or `"H:M"` with range checks. -/
def parse_time_spec (s : Str) : Res (Nat × Nat) :=
  match splitOnceC ':' s with
  | some (h, m) =>
    match parseU32E h with
    | .error _ => .err (strL "Invalid hour: " ++ h)
    | .ok hour =>
      match parseU32E m with
      | .error _ => .err (strL "Invalid minute: " ++ m)
      | .ok minute =>
        if hour > 23 then .err (strL "Hour must be 0-23")
        else if minute > 59 then .err (strL "Minute must be 0-59")
        else .ok (hour, minute)
  | none =>
    match parseU32E s with
    | .error _ => .err (strL "Invalid hour: " ++ s)
    | .ok hour =>
      if hour > 23 then .err (strL "Hour must be 0-23")
      else .ok (hour, 0)

/-- `FieldType`: the four numeric cron fields. -/
inductive FieldType where
  | Minute
  | Hour
  | DayOfMonth
  | Month
deriving DecidableEq

/-- The field's inclusive range. -/
def FieldType.range : FieldType → Nat × Nat
  | .Minute => (0, 59)
  | .Hour => (0, 23)
  | .DayOfMonth => (1, 31)
  | .Month => (1, 12)

/-- The field's range start. -/
def FieldType.start (t : FieldType) : Nat := t.range.1

/-- The `while v <= end` loop of the stepped-range expansion, with explicit
fuel and wrapping `u32` addition; `none` means the fuel ran out. -/
def stepLoop : Nat → Nat → Nat → Nat → List Str → Option (List Str)
  | 0, _, _, _, _ => none
  | fuel + 1, v, endv, step, acc =>
    if v ≤ endv then stepLoop fuel ((v + step) % U32MOD) endv step (acc ++ [pad2 v])
    else some acc

/-- `parse_single_element`: one raw token of a numeric cron field. -/
def parse_single_element (element : Str) (ft : FieldType) : Res Str :=
  match stripPre (strL "*/") element with
  | some stepStr =>
    match parseU32E stepStr with
    | .error e => .err e
    | .ok step => .ok (natToStr ft.start ++ '/' :: natToStr step)
  | none =>
    if element.contains '-' && element.contains '/' then
      match splitOnceC '/' element with
      | none => .panicked (strL "called Option::unwrap on a None value")
      | some (rangePart, stepStr) =>
        match parseU32E stepStr with
        | .error e => .err e
        | .ok step =>
          match splitOnceC '-' rangePart with
          | none => .panicked (strL "called Option::unwrap on a None value")
          | some (startStr, endStr) =>
            match parseU32E startStr with
            | .error e => .err e
            | .ok start =>
              match parseU32E endStr with
              | .error e => .err e
              | .ok endv =>
                match stepLoop (endv + 2) start endv step [] with
                | some values => .ok (List.intercalate (strL ",") values)
                | none => .hang
    else
      match splitOnceC '-' element with
      | some (startStr, endStr) =>
        match parseU32E startStr with
        | .error e => .err e
        | .ok start =>
          match parseU32E endStr with
          | .error e => .err e
          | .ok endv => .ok (natToStr start ++ strL ".." ++ natToStr endv)
      | none =>
        match parseU32E element with
        | .error e => .err e
        | .ok n => .ok (pad2 n)

/-- The element loop of `parse_field` over a comma-separated list. -/
def parseElems : List Str → FieldType → Res (List Str)
  | [], _ => .ok []
  | p :: rest, ft =>
    match parse_single_element p ft with
    | .ok v =>
      match parseElems rest ft with
      | .ok vs => .ok (v :: vs)
      | .err e => .err e
      | .hang => .hang
      | .panicked m => .panicked m
    | .err e => .err e
    | .hang => .hang
    | .panicked m => .panicked m

/-- `parse_field`: a whole numeric cron field. -/
def parse_field (field : Str) (ft : FieldType) : Res Str :=
  if field == strL "*" then .ok (strL "*")
  else
    let parts := splitC ',' field
    if parts.length > 1 then
      match parseElems parts ft with
      | .ok values => .ok (List.intercalate (strL ",") values)
      | .err e => .err e
      | .hang => .hang
      | .panicked m => .panicked m
    else parse_single_element field ft

/-- `dow_to_name`: one day-of-week token of the standard path (numeric
`0`-`7` with `7 ↦ 0`, otherwise short-name equality or prefix). -/
def dow_to_name (s : Str) : Res Str :=
  match parseU32 s with
  | some n =>
    let idx := if n = 7 then 0 else n
    if idx < DOW_NAMES.length then .ok (DOW_NAMES.getD idx [])
    else .err (strL "Invalid day of week number: " ++ natToStr n)
  | none =>
    let lower := toLower s
    match dowLookupShortPre DOW_NAMES lower with
    | some name => .ok name
    | none => .err (strL "Invalid day of week: " ++ s)

/-- `parse_single_dow`: a day-of-week element, possibly a range `N-M`. -/
def parse_single_dow (element : Str) : Res Str :=
  match splitOnceC '-' element with
  | some (startStr, endStr) =>
    match dow_to_name startStr with
    | .ok start =>
      match dow_to_name endStr with
      | .ok endN => .ok (start ++ strL ".." ++ endN)
      | .err e => .err e
      | .hang => .hang
      | .panicked m => .panicked m
    | .err e => .err e
    | .hang => .hang
    | .panicked m => .panicked m
  | none => dow_to_name element

/-- The element loop of `parse_dow_field`. -/
def parseDows : List Str → Res (List Str)
  | [] => .ok []
  | p :: rest =>
    match parse_single_dow p with
    | .ok v =>
      match parseDows rest with
      | .ok vs => .ok (v :: vs)
      | .err e => .err e
      | .hang => .hang
      | .panicked m => .panicked m
    | .err e => .err e
    | .hang => .hang
    | .panicked m => .panicked m

/-- `parse_dow_field`: the whole day-of-week field (`*` means "no
constraint"). -/
def parse_dow_field (field : Str) : Res (Option Str) :=
  if field == strL "*" then .ok none
  else
    let parts := splitC ',' field
    if parts.length > 1 then
      match parseDows parts with
      | .ok names => .ok (some (List.intercalate (strL ",") names))
      | .err e => .err e
      | .hang => .hang
      | .panicked m => .panicked m
    else
      match parse_single_dow field with
      | .ok n => .ok (some n)
      | .err e => .err e
      | .hang => .hang
      | .panicked m => .panicked m

/-- The "Missing time" message of `check_incomplete_syntax`. -/
def missingTimeMsg (expr : Str) : Str :=
  strL "Missing time for '" ++ expr ++ strL "'. Use: " ++ expr ++
  strL "/9 or " ++ expr ++ strL "/9:30"

/-- `check_incomplete_syntax`: targeted errors for bare weekday or ordinal
keywords. -/
def check_incomplete (expr : Str) : Except Str Unit :=
  let lower := toLower expr
  if is_weekday_keyword lower then .error (missingTimeMsg expr)
  else
    match try_parse_ordinal_any lower with
    | some day =>
      if ¬ (1 ≤ day ∧ day ≤ 31) then .error (strL "Day must be 1-31, got " ++ natToStr day)
      else .error (missingTimeMsg expr)
    | none =>
      if lower == strL "@daily" || lower == strL "@weekly" || lower == strL "@monthly" then .ok ()
      else .ok ()

/-- `parse_extended`: the slash-delimited extended shorthand grammar.
`ok none` means "not extended syntax", allowing fallthrough. -/
def parse_extended (expr : Str) : Res (Option CronSchedule) :=
  if !startsWithChar '@' expr || !expr.contains '/' then .ok none
  else
    let parts := splitC '/' expr
    if parts.isEmpty then .ok none
    else
      let keyword := toLower (parts.headD [])
      if keyword == strL "@daily" then
        if parts.length ≠ 2 then .err (strL "Invalid @daily syntax. Use: @daily/9 or @daily/9:30")
        else
          match parse_time_spec (parts.getD 1 []) with
          | .ok (hour, minute) =>
            .ok (some ⟨some (strL "*-*-* " ++ pad2 hour ++ ':' :: pad2 minute ++ strL ":00"),
                       none, false, some (format_time_display (strL "@daily") hour minute)⟩)
          | .err e => .err e
          | .hang => .hang
          | .panicked m => .panicked m
      else if keyword == strL "@weekly" then
        if parts.length ≠ 3 then
          .err (strL "Invalid @weekly syntax. Use: @weekly/mon/9 or @weekly/mon/9:30")
        else
          match parse_dow_name (parts.getD 1 []) with
          | .ok dow =>
            match parse_time_spec (parts.getD 2 []) with
            | .ok (hour, minute) =>
              .ok (some ⟨some (dow ++ strL " *-*-* " ++ pad2 hour ++ ':' :: pad2 minute ++ strL ":00"),
                         none, false, some ('@' :: toLower dow ++ '/' :: format_time hour minute)⟩)
            | .err e => .err e
            | .hang => .hang
            | .panicked m => .panicked m
          | .err e => .err e
          | .hang => .hang
          | .panicked m => .panicked m
      else if keyword == strL "@monthly" then
        if parts.length ≠ 3 then
          .err (strL "Invalid @monthly syntax. Use: @monthly/1/9 or @monthly/15/9:30")
        else
          match parseU32E (parts.getD 1 []) with
          | .error _ => .err (strL "Invalid day: " ++ parts.getD 1 [])
          | .ok day =>
            if ¬ (1 ≤ day ∧ day ≤ 31) then .err (strL "Day must be between 1 and 31")
            else
              match parse_time_spec (parts.getD 2 []) with
              | .ok (hour, minute) =>
                .ok (some ⟨some (strL "*-*-" ++ pad2 day ++ ' ' :: pad2 hour ++ ':' :: pad2 minute ++ strL ":00"),
                           none, false, some ('@' :: ordinal day ++ '/' :: format_time hour minute)⟩)
              | .err e => .err e
              | .hang => .hang
              | .panicked m => .panicked m
      else
        match try_parse_dow_keyword keyword with
        | some dow =>
          if parts.length ≠ 2 then
            .err (strL "Invalid weekday syntax. Use: @monday/9 or @mon/9:30")
          else
            match parse_time_spec (parts.getD 1 []) with
            | .ok (hour, minute) =>
              .ok (some ⟨some (dow ++ strL " *-*-* " ++ pad2 hour ++ ':' :: pad2 minute ++ strL ":00"),
                         none, false, some ('@' :: toLower dow ++ '/' :: format_time hour minute)⟩)
            | .err e => .err e
            | .hang => .hang
            | .panicked m => .panicked m
        | none =>
          match try_parse_ordinal keyword with
          | some day =>
            if parts.length ≠ 2 then
              .err (strL "Invalid ordinal syntax. Use: @1st/9 or @15th/9:30")
            else
              match parse_time_spec (parts.getD 1 []) with
              | .ok (hour, minute) =>
                .ok (some ⟨some (strL "*-*-" ++ pad2 day ++ ' ' :: pad2 hour ++ ':' :: pad2 minute ++ strL ":00"),
                           none, false, some ('@' :: ordinal day ++ '/' :: format_time hour minute)⟩)
              | .err e => .err e
              | .hang => .hang
              | .panicked m => .panicked m
          | none =>
            match try_parse_ordinal_any keyword with
            | some day => .err (strL "Day must be 1-31, got " ++ natToStr day)
            | none => .ok none

/-- The standard five-field fallback of `parse` (inline in the source). -/
def parse_standard (fields : List Str) : Res CronSchedule :=
  if fields.length ≠ 5 then
    .err (strL "Invalid cron expression: expected 5 fields, got " ++ natToStr fields.length)
  else
    Res.bind (parse_field (fields.getD 0 []) FieldType.Minute) fun minute =>
    Res.bind (parse_field (fields.getD 1 []) FieldType.Hour) fun hour =>
    Res.bind (parse_field (fields.getD 2 []) FieldType.DayOfMonth) fun dom =>
    Res.bind (parse_field (fields.getD 3 []) FieldType.Month) fun month =>
    Res.bind (parse_dow_field (fields.getD 4 [])) fun dow =>
    let calendar :=
      (match dow with
       | some d => d ++ [' ']
       | none => []) ++
      strL "*-" ++ month ++ '-' :: dom ++ ' ' :: hour ++ ':' :: minute ++ strL ":00"
    .ok ⟨some calendar, none, false, none⟩

/-- `parse`: the translator's entry point. -/
def parse (expr : Str) : Res CronSchedule :=
  let trimmed := trim expr
  match parse_extended trimmed with
  | .err e => .err e
  | .hang => .hang
  | .panicked m => .panicked m
  | .ok (some schedule) => .ok schedule
  | .ok none =>
    match parse_special trimmed with
    | some special => .ok special
    | none =>
      if startsWithChar '@' trimmed then
        match check_incomplete trimmed with
        | .error e => .err e
        | .ok _ => parse_standard (splitWs trimmed)
      else parse_standard (splitWs trimmed)

/-! ## Definitions used to state the claims -/

/-- The wrong-number-of-fields (structural) error message. -/
def structuralMsg (n : Nat) : Str :=
  strL "Invalid cron expression: expected 5 fields, got " ++ natToStr n

/-- At most one of calendar, boot-delay and service marker is populated. -/
def atMostOne (r : CronSchedule) : Bool :=
  (r.on_calendar.isSome.toNat + r.on_boot_sec.isSome.toNat + r.is_service.toNat) ≤ 1

/-- A five-field expression built from single-space-separated fields. -/
def mk5 (f1 f2 f3 f4 f5 : Str) : Str :=
  f1 ++ ' ' :: (f2 ++ ' ' :: (f3 ++ ' ' :: (f4 ++ ' ' :: f5)))

/-- A string free of whitespace characters. -/
def wsFree (s : Str) : Prop := ∀ c ∈ s, isWs c = false

/-- Characters that can occur in a decimal digit position. -/
def isDigitCh (c : Char) : Prop := '0' ≤ c ∧ c ≤ '9'

instance (c : Char) : Decidable (isDigitCh c) := by
  unfold isDigitCh; infer_instance

instance (s : Str) : Decidable (wsFree s) := by
  unfold wsFree; infer_instance

/-- Specification-side resolver for a non-numeric day-of-week token of the
standard path: the first short name (in table order) whose lowercase form
equals the token or has the token as a prefix, case-insensitively. -/
def dowResolveSpec (s : Str) : Res Str :=
  match DOW_NAMES.find? (fun name => toLower name == toLower s || isPre (toLower s) (toLower name)) with
  | some name => .ok name
  | none => .err (strL "Invalid day of week: " ++ s)

/-- An input (already trimmed) handled by the shorthand machinery: the
extended parser either succeeds or raises its own error, or the classic
table matches, or the incomplete-syntax checker raises a targeted error. -/
def recognizedShorthand (t : Str) : Prop :=
  parse_extended t ≠ .ok none ∨ parse_special t ≠ none ∨
  (startsWithChar '@' t = true ∧ check_incomplete t ≠ .ok ())

deriving instance DecidableEq for Except

instance (t : Str) : Decidable (recognizedShorthand t) := by
  unfold recognizedShorthand; infer_instance

/-- The values emitted by a stepped range, in closed form. -/
def steppedVals (a b s : Nat) : List Str :=
  (List.range ((b - a) / s + 1)).map (fun i => pad2 (a + i * s))

/-- The schedule produced by the extended `@daily/<time>` branch. -/
def dailySchedule (h m : Nat) : CronSchedule :=
  ⟨some (strL "*-*-* " ++ pad2 h ++ ':' :: pad2 m ++ strL ":00"), none, false,
   some (format_time_display (strL "@daily") h m)⟩

/-- The schedule produced by the weekly / weekday-keyword branches. -/
def dowSchedule (dow : Str) (h m : Nat) : CronSchedule :=
  ⟨some (dow ++ strL " *-*-* " ++ pad2 h ++ ':' :: pad2 m ++ strL ":00"), none, false,
   some ('@' :: toLower dow ++ '/' :: format_time h m)⟩

/-- The schedule produced by the monthly / ordinal branches. -/
def ordSchedule (dy h m : Nat) : CronSchedule :=
  ⟨some (strL "*-*-" ++ pad2 dy ++ ' ' :: pad2 h ++ ':' :: pad2 m ++ strL ":00"), none, false,
   some ('@' :: ordinal dy ++ '/' :: format_time h m)⟩

/-! ## Lemmas: characters and decimal rendering -/

theorem not_digit_ne {d : Char} (hd : ¬ isDigitCh d) {c : Char} (hc : isDigitCh c) : c ≠ d :=
  fun h => hd (h ▸ hc)

theorem digitChar_isDigit {n : Nat} (h : n < 10) : isDigitCh (digitChar n) := by
  interval_cases n <;> decide

theorem charDigit_digitChar {n : Nat} (h : n < 10) : charDigit (digitChar n) = some n := by
  interval_cases n <;> decide

theorem natToStrW_digits (n : Nat) : ∀ c ∈ natToStrW n, isDigitCh c := by
  induction n using Nat.strong_induction_on with
  | _ n ih =>
    rw [natToStrW]
    split
    · intro c hc
      rw [List.mem_singleton] at hc
      exact hc ▸ digitChar_isDigit (by omega)
    · intro c hc
      rcases List.mem_append.mp hc with h1 | h1
      · exact ih (n / 10) (Nat.div_lt_self (by omega) (by omega)) c h1
      · rw [List.mem_singleton] at h1
        exact h1 ▸ digitChar_isDigit (Nat.mod_lt _ (by omega))

theorem natToStrW_ne_nil (n : Nat) : natToStrW n ≠ [] := by
  rw [natToStrW]
  split <;> simp

theorem natToStrGo_eq (fuel n : Nat) (acc : Str) (h : n < fuel) :
    natToStrGo fuel n acc = natToStrW n ++ acc := by
  induction fuel generalizing n acc with
  | zero => omega
  | succ fuel ih =>
    rw [natToStrGo, natToStrW]
    by_cases h10 : n < 10
    · simp [h10]
    · have hdiv : n / 10 < fuel := by
        have := Nat.div_lt_self (show 0 < n by omega) (show 1 < 10 by omega)
        omega
      simp only [h10, if_neg, dif_neg, not_false_iff]
      rw [ih (n / 10) _ hdiv, List.append_assoc]
      rfl

theorem natToStr_eq_W (n : Nat) : natToStr n = natToStrW n := by
  rw [natToStr, natToStrGo_eq (n + 1) n [] (Nat.lt_succ_self n), List.append_nil]

theorem natToStr_digits (n : Nat) : ∀ c ∈ natToStr n, isDigitCh c := by
  rw [natToStr_eq_W]; exact natToStrW_digits n

theorem natToStr_ne_nil (n : Nat) : natToStr n ≠ [] := by
  rw [natToStr_eq_W]; exact natToStrW_ne_nil n

theorem digitsValAux_append (a b : Str) (acc : Nat) :
    digitsValAux (a ++ b) acc =
      match digitsValAux a acc with
      | some v => digitsValAux b v
      | none => none := by
  induction a generalizing acc with
  | nil => rfl
  | cons c rest ih =>
    rw [List.cons_append, digitsValAux, digitsValAux]
    cases charDigit c with
    | some d => exact ih (acc * 10 + d)
    | none => rfl

theorem digitsValAux_natToStrW (n : Nat) : ∀ acc : Nat,
    digitsValAux (natToStrW n) acc = some (acc * 10 ^ (natToStrW n).length + n) := by
  induction n using Nat.strong_induction_on with
  | _ n ih =>
    intro acc
    rw [natToStrW]
    by_cases h10 : n < 10
    · simp only [h10, dif_pos]
      simp only [digitsValAux, charDigit_digitChar h10]
      simp
    · simp only [h10, dif_neg, not_false_iff]
      have hdiv : n / 10 < n := Nat.div_lt_self (by omega) (by omega)
      rw [digitsValAux_append, ih (n / 10) hdiv acc]
      simp only [digitsValAux, charDigit_digitChar (Nat.mod_lt _ (show 0 < 10 by omega))]
      have hlen : (natToStrW (n / 10) ++ [digitChar (n % 10)]).length =
          (natToStrW (n / 10)).length + 1 := by simp
      rw [hlen]
      congr 1
      have hmod : n / 10 * 10 + n % 10 = n := by
        have := Nat.div_add_mod n 10
        omega
      ring_nf
      omega

theorem digitsValAux_natToStr (n : Nat) : digitsValAux (natToStr n) 0 = some n := by
  rw [natToStr_eq_W, digitsValAux_natToStrW n 0]
  simp

theorem head_digit_of_digits {s : Str} (hne : s ≠ [])
    (hd : ∀ c ∈ s, isDigitCh c) : ∃ c cs, s = c :: cs ∧ isDigitCh c := by
  cases s with
  | nil => exact absurd rfl hne
  | cons c cs => exact ⟨c, cs, rfl, hd c (List.mem_cons_self c cs)⟩

theorem stripPlusOne_of_digits {s : Str} (hne : s ≠ [])
    (hd : ∀ c ∈ s, isDigitCh c) : stripPlusOne s = s := by
  obtain ⟨c, cs, rfl, hc⟩ := head_digit_of_digits hne hd
  have : c ≠ '+' := not_digit_ne (by decide) hc
  simp [stripPlusOne, this]

/-- A nonempty all-digit string parses to its decimal value (when below 2^32). -/
theorem parseU32E_digits {s : Str} (hne : s ≠ []) (hd : ∀ c ∈ s, isDigitCh c)
    {v : Nat} (hv : digitsValAux s 0 = some v) (hlt : v < U32MOD) :
    parseU32E s = .ok v := by
  rw [parseU32E]
  rw [if_neg (by simpa [List.isEmpty_iff] using hne)]
  simp only [stripPlusOne_of_digits hne hd]
  rw [if_neg (by simpa [List.isEmpty_iff] using hne)]
  rw [hv]
  simp [hlt]

theorem parseU32E_natToStr {n : Nat} (h : n < U32MOD) :
    parseU32E (natToStr n) = .ok n :=
  parseU32E_digits (natToStr_ne_nil n) (natToStr_digits n) (digitsValAux_natToStr n) h

theorem parseU32_natToStr {n : Nat} (h : n < U32MOD) :
    parseU32 (natToStr n) = some n := by
  rw [parseU32, parseU32E_natToStr h]; rfl

theorem pad2_digits (n : Nat) : ∀ c ∈ pad2 n, isDigitCh c := by
  rw [pad2]
  split
  · intro c hc
    rcases List.mem_cons.mp hc with h1 | h1
    · exact h1 ▸ (by decide)
    · exact natToStr_digits n c h1
  · exact natToStr_digits n

theorem pad2_ne_nil (n : Nat) : pad2 n ≠ [] := by
  rw [pad2]
  split
  · simp
  · exact natToStr_ne_nil n

theorem digitsValAux_pad2 (n : Nat) : digitsValAux (pad2 n) 0 = some n := by
  rw [pad2]
  split
  · rw [digitsValAux]
    have : charDigit '0' = some 0 := by decide
    rw [this]
    simpa using digitsValAux_natToStr n
  · exact digitsValAux_natToStr n

theorem parseU32E_pad2 {n : Nat} (h : n < U32MOD) : parseU32E (pad2 n) = .ok n :=
  parseU32E_digits (pad2_ne_nil n) (pad2_digits n) (digitsValAux_pad2 n) h

theorem toLowerChar_digit {c : Char} (hc : isDigitCh c) : toLowerChar c = c := by
  rw [toLowerChar, if_neg]
  rintro ⟨hA, _⟩
  have h9 : c ≤ '9' := hc.2
  have : ('A' : Char) ≤ '9' := le_trans hA h9
  exact absurd this (by decide)

theorem toLower_digits {s : Str} (hd : ∀ c ∈ s, isDigitCh c) : toLower s = s := by
  induction s with
  | nil => rfl
  | cons c cs ih =>
    rw [toLower, List.map_cons, toLowerChar_digit (hd c (List.mem_cons_self c cs))]
    have h2 := ih (fun x hx => hd x (List.mem_cons_of_mem c hx))
    rw [toLower] at h2
    rw [h2]

theorem isWs_digit {c : Char} (hc : isDigitCh c) : isWs c = false := by
  have h1 : c ≠ ' ' := not_digit_ne (by decide) hc
  have h2 : c ≠ '\t' := not_digit_ne (by decide) hc
  have h3 : c ≠ '\n' := not_digit_ne (by decide) hc
  have h4 : c ≠ '\r' := not_digit_ne (by decide) hc
  have h5 : c ≠ '\x0b' := not_digit_ne (by decide) hc
  have h6 : c ≠ '\x0c' := not_digit_ne (by decide) hc
  simp [isWs, h1, h2, h3, h4, h5, h6]

/-! ## Lemmas: splitting, prefixes, trimming -/

theorem splitOnceC_not_mem {sep : Char} : ∀ {s : Str}, sep ∉ s → splitOnceC sep s = none := by
  intro s
  induction s with
  | nil => intro _; rfl
  | cons c rest ih =>
    intro h
    have hc : c ≠ sep := fun hh => h (hh ▸ List.mem_cons_self c rest)
    rw [splitOnceC, if_neg (by simpa using hc), ih (fun hm => h (List.mem_cons_of_mem c hm))]

theorem splitOnceC_append {sep : Char} {a : Str} (ha : sep ∉ a) (b : Str) :
    splitOnceC sep (a ++ sep :: b) = some (a, b) := by
  induction a with
  | nil => simp [splitOnceC]
  | cons c a2 ih =>
    have hc : c ≠ sep := fun hh => ha (hh ▸ List.mem_cons_self c a2)
    rw [List.cons_append, splitOnceC, if_neg (by simpa using hc),
      ih (fun hm => ha (List.mem_cons_of_mem c hm))]

theorem splitOnceC_eq_some {sep : Char} :
    ∀ {s a b : Str}, splitOnceC sep s = some (a, b) → s = a ++ sep :: b ∧ sep ∉ a := by
  intro s
  induction s with
  | nil => intro a b h; cases h
  | cons c rest ih =>
    intro a b h
    rw [splitOnceC] at h
    by_cases hc : c == sep
    · rw [if_pos hc] at h
      cases h
      refine ⟨?_, by simp⟩
      have : c = sep := by simpa using hc
      rw [this]
      rfl
    · rw [if_neg hc] at h
      cases hsp : splitOnceC sep rest with
      | none => rw [hsp] at h; cases h
      | some p =>
        obtain ⟨a2, b2⟩ := p
        rw [hsp] at h
        cases h
        obtain ⟨h1, h2⟩ := ih hsp
        refine ⟨by rw [List.cons_append, ← h1], ?_⟩
        intro hm
        rcases List.mem_cons.mp hm with h3 | h3
        · exact hc (by simpa using h3.symm)
        · exact h2 h3

theorem splitC_ne_nil (sep : Char) : ∀ s : Str, splitC sep s ≠ [] := by
  intro s
  induction s with
  | nil => simp [splitC]
  | cons c rest ih =>
    cases hsp : splitC sep rest with
    | nil => exact absurd hsp ih
    | cons h t =>
      simp only [splitC, hsp]
      split <;> simp

theorem splitC_not_mem {sep : Char} : ∀ {s : Str}, sep ∉ s → splitC sep s = [s] := by
  intro s
  induction s with
  | nil => intro _; rfl
  | cons c rest ih =>
    intro h
    have hc : c ≠ sep := fun hh => h (hh ▸ List.mem_cons_self c rest)
    have ih2 := ih (fun hm => h (List.mem_cons_of_mem c hm))
    simp only [splitC, ih2]
    simp [hc]

theorem splitC_append {sep : Char} {a : Str} (ha : sep ∉ a) (b : Str) :
    splitC sep (a ++ sep :: b) = a :: splitC sep b := by
  induction a with
  | nil =>
    cases hsp : splitC sep b with
    | nil => exact absurd hsp (splitC_ne_nil sep b)
    | cons h t => simp [splitC, hsp]
  | cons c a2 ih =>
    have hc : c ≠ sep := fun hh => ha (hh ▸ List.mem_cons_self c a2)
    have ih2 := ih (fun hm => ha (List.mem_cons_of_mem c hm))
    simp only [List.cons_append, splitC, List.append_eq]
    rw [ih2]
    simp [hc]

theorem stripPre_cons_ne {c d : Char} (h : d ≠ c) (p s : Str) :
    stripPre (c :: p) (d :: s) = none := by
  have hcd : (c == d) = false := by simpa using (Ne.symm h)
  simp [stripPre, isPre, List.isPrefixOf, hcd]

theorem stripPre_at (rest : Str) : stripPre (strL "@") ('@' :: rest) = some rest := by
  rw [stripPre, if_pos] <;> simp [strL, isPre, List.isPrefixOf]

theorem trimLeft_cons {c : Char} (h : isWs c = false) (cs : Str) :
    trimLeft (c :: cs) = c :: cs := by
  simp [trimLeft, List.dropWhile_cons, h]

theorem trimRight_of_last {s : Str}
    (h : ∀ c, s.getLast? = some c → isWs c = false) : trimRight s = s := by
  cases hr : s.reverse with
  | nil =>
    have : s = [] := by simpa using congrArg List.reverse hr
    rw [this]
    rfl
  | cons c cs =>
    have hlast : s.getLast? = some c := by
      rw [← List.head?_reverse, hr]
      rfl
    rw [trimRight, hr, List.dropWhile_cons]
    simp only [h c hlast]
    simp [← hr]

theorem trim_eq_self {s : Str}
    (h1 : ∀ c, s.head? = some c → isWs c = false)
    (h2 : ∀ c, s.getLast? = some c → isWs c = false) : trim s = s := by
  rw [trim, trimRight_of_last h2]
  cases s with
  | nil => rfl
  | cons c cs => exact trimLeft_cons (h1 c rfl) cs

/-! ## Lemmas: whitespace splitting -/

theorem splitWsAux_chunk : ∀ (w : Str), wsFree w → ∀ (rest acc : Str),
    splitWsAux (w ++ rest) acc = splitWsAux rest (w.reverse ++ acc) := by
  intro w
  induction w with
  | nil => intro _ rest acc; simp
  | cons c w2 ih =>
    intro hw rest acc
    rw [List.cons_append, splitWsAux]
    rw [hw c (List.mem_cons_self c w2)]
    simp only [Bool.false_eq_true, if_false]
    rw [ih (fun x hx => hw x (List.mem_cons_of_mem c hx)) rest (c :: acc)]
    simp

theorem splitWsAux_sp (rest acc : Str) :
    splitWsAux (' ' :: rest) acc =
      if acc.isEmpty then splitWsAux rest [] else acc.reverse :: splitWsAux rest [] := by
  rw [splitWsAux]
  simp [isWs]

theorem splitWs_step {f : Str} (hne : f ≠ []) (hf : wsFree f) (rest : Str) :
    splitWsAux (f ++ ' ' :: rest) [] = f :: splitWsAux rest [] := by
  rw [splitWsAux_chunk f hf (' ' :: rest) [], List.append_nil, splitWsAux_sp]
  rw [if_neg (by simpa [List.isEmpty_iff] using hne), List.reverse_reverse]

theorem splitWs_last {f : Str} (hne : f ≠ []) (hf : wsFree f) :
    splitWsAux f [] = [f] := by
  have h0 := splitWsAux_chunk f hf [] []
  rw [List.append_nil, List.append_nil] at h0
  rw [h0, splitWsAux]
  rw [if_neg (by simpa [List.isEmpty_iff] using hne), List.reverse_reverse]

theorem splitWs_mk5 {f1 f2 f3 f4 f5 : Str}
    (h1 : f1 ≠ []) (h2 : f2 ≠ []) (h3 : f3 ≠ []) (h4 : f4 ≠ []) (h5 : f5 ≠ [])
    (w1 : wsFree f1) (w2 : wsFree f2) (w3 : wsFree f3) (w4 : wsFree f4) (w5 : wsFree f5) :
    splitWs (mk5 f1 f2 f3 f4 f5) = [f1, f2, f3, f4, f5] := by
  rw [splitWs, mk5, splitWs_step h1 w1, splitWs_step h2 w2, splitWs_step h3 w3,
    splitWs_step h4 w4, splitWs_last h5 w5]

/-! ## Lemmas: the stepped-range loop -/

/-- With step `0` and a start not above the bound, the loop never terminates:
it returns `none` for every amount of fuel. -/
theorem stepLoop_zero_none : ∀ (fuel v endv : Nat) (acc : List Str),
    v ≤ endv → v < U32MOD → stepLoop fuel v endv 0 acc = none := by
  intro fuel
  induction fuel with
  | zero => intros; rfl
  | succ fuel ih =>
    intro v endv acc hv hlt
    rw [stepLoop, if_pos hv]
    have hm : (v + 0) % U32MOD = v := by
      rw [Nat.add_zero]
      exact Nat.mod_eq_of_lt hlt
    rw [hm]
    exact ih v endv _ hv hlt

theorem stepLoop_exit {fuel v endv step : Nat} {acc : List Str} (h : ¬ v ≤ endv) :
    stepLoop (fuel + 1) v endv step acc = some acc := by
  rw [stepLoop, if_neg h]

/-- Peeling the first value off the ladder of a stepped range. -/
theorem ladder_cons {v b s : Nat} (hs : 1 ≤ s) (hv2 : v + s ≤ b) :
    (List.range ((b - v) / s + 1)).map (fun i => pad2 (v + i * s)) =
      pad2 v :: (List.range ((b - (v + s)) / s + 1)).map (fun i => pad2 (v + s + i * s)) := by
  have hsle : s ≤ b - v := by omega
  have hdiv : (b - v) / s = (b - (v + s)) / s + 1 := by
    rw [Nat.div_eq_sub_div (by omega) hsle]
    congr 2
    omega
  rw [hdiv, List.range_succ_eq_map, List.map_cons, List.map_map]
  congr 1
  · simp
  · apply List.map_congr_left
    intro i _
    simp only [Function.comp_apply, Nat.succ_eq_add_one]
    congr 1
    ring

/-- With a positive step and no wrap-around, the loop terminates (given
enough fuel) and produces exactly the ascending ladder of padded values. -/
theorem stepLoop_run : ∀ (fuel v b s : Nat) (acc : List Str),
    1 ≤ s → b + s < U32MOD → v ≤ b → (b - v) / s + 2 ≤ fuel →
    stepLoop fuel v b s acc =
      some (acc ++ (List.range ((b - v) / s + 1)).map (fun i => pad2 (v + i * s))) := by
  intro fuel
  induction fuel with
  | zero =>
    intro v b s acc _ _ _ hf
    exact absurd hf (Nat.not_succ_le_zero _)
  | succ fuel ih =>
    intro v b s acc hs hbs hv hf
    rw [stepLoop, if_pos hv]
    have hm : (v + s) % U32MOD = v + s := Nat.mod_eq_of_lt (by omega)
    rw [hm]
    by_cases hv2 : v + s ≤ b
    · have hsle : s ≤ b - v := by omega
      have hdiv : (b - v) / s = (b - (v + s)) / s + 1 := by
        rw [Nat.div_eq_sub_div (by omega) hsle]
        congr 2
        omega
      have hf2 : (b - (v + s)) / s + 2 ≤ fuel := by
        rw [hdiv] at hf
        omega
      rw [ih (v + s) b s (acc ++ [pad2 v]) hs hbs hv2 hf2]
      rw [ladder_cons hs hv2]
      simp
    · have hd0 : (b - v) / s = 0 := Nat.div_eq_of_lt (by omega)
      cases fuel with
      | zero =>
        rw [hd0] at hf
        exact absurd hf (by omega)
      | succ fuel2 =>
        rw [stepLoop_exit hv2, hd0]
        simp [List.range_succ]

/-- The fuel `parse_single_element` supplies is sufficient whenever the step
is positive and no wrap-around occurs. -/
theorem stepLoop_full {a b s : Nat} (hs : 1 ≤ s) (hab : a ≤ b) (hbs : b + s < U32MOD) :
    stepLoop (b + 2) a b s [] = some (steppedVals a b s) := by
  rw [stepLoop_run (b + 2) a b s [] hs hbs hab]
  · rw [steppedVals, List.nil_append]
  · have : (b - a) / s ≤ b - a := Nat.div_le_self _ _
    omega

/-! ## Lemmas: routing of `parse` -/

theorem parse_special_of_space {t : Str} (h : ' ' ∈ t) : parse_special t = none := by
  have ne : ∀ kw : String, ' ' ∉ strL kw → (t == strL kw) = false := by
    intro kw hkw
    rw [beq_eq_false_iff_ne]
    intro he
    exact hkw (he ▸ h)
  rw [parse_special]
  simp [ne "@yearly" (by decide), ne "@annually" (by decide), ne "@monthly" (by decide),
    ne "@weekly" (by decide), ne "@daily" (by decide), ne "@midnight" (by decide),
    ne "@hourly" (by decide), ne "@reboot" (by decide), ne "@service" (by decide)]

theorem parse_extended_not_at {t : Str} (h : startsWithChar '@' t = false) :
    parse_extended t = .ok none := by
  rw [parse_extended, if_pos]
  rw [h]
  rfl

theorem startsWithChar_append {c : Char} {a : Str} (ha : a ≠ []) (b : Str) :
    startsWithChar c (a ++ b) = startsWithChar c a := by
  cases a with
  | nil => exact absurd rfl ha
  | cons x xs => rfl

theorem mem_of_getLast?_eq {l : Str} {c : Char} (h : l.getLast? = some c) : c ∈ l := by
  rw [← List.head?_reverse] at h
  rw [← List.mem_reverse]
  cases hl : l.reverse with
  | nil => rw [hl] at h; cases h
  | cons x xs =>
    rw [hl] at h
    rw [List.head?_cons, Option.some.injEq] at h
    rw [← h]
    exact List.mem_cons_self x xs

theorem getLast?_sp_chunk {x : Str} (hx : x ≠ []) (f : Str) :
    (f ++ ' ' :: x).getLast? = x.getLast? := by
  rw [List.getLast?_append_of_ne_nil f (by simp)]
  rw [show (' ' :: x) = [' '] ++ x from rfl]
  rw [List.getLast?_append_of_ne_nil [' '] hx]

theorem getLast?_mk5 {f5 : Str} (h5 : f5 ≠ []) (f1 f2 f3 f4 : Str) :
    (mk5 f1 f2 f3 f4 f5).getLast? = f5.getLast? := by
  rw [mk5]
  rw [getLast?_sp_chunk (by simp) f1, getLast?_sp_chunk (by simp) f2,
    getLast?_sp_chunk (by simp) f3, getLast?_sp_chunk h5 f4]

/-- On single-space-joined, whitespace-free, nonempty fields whose first
field does not begin with the sentinel, `parse` reaches the standard
five-field path. -/
theorem parse_mk5 {f1 f2 f3 f4 f5 : Str}
    (h1 : f1 ≠ []) (h2 : f2 ≠ []) (h3 : f3 ≠ []) (h4 : f4 ≠ []) (h5 : f5 ≠ [])
    (w1 : wsFree f1) (w2 : wsFree f2) (w3 : wsFree f3) (w4 : wsFree f4) (w5 : wsFree f5)
    (hat : startsWithChar '@' f1 = false) :
    parse (mk5 f1 f2 f3 f4 f5) = parse_standard [f1, f2, f3, f4, f5] := by
  have hne : mk5 f1 f2 f3 f4 f5 ≠ [] := by
    rw [mk5]
    simp
  have hstart : startsWithChar '@' (mk5 f1 f2 f3 f4 f5) = false := by
    rw [mk5, startsWithChar_append h1, hat]
  have htrim : trim (mk5 f1 f2 f3 f4 f5) = mk5 f1 f2 f3 f4 f5 := by
    apply trim_eq_self
    · intro c hc
      cases hf1 : f1 with
      | nil => exact absurd hf1 h1
      | cons x xs =>
        rw [mk5, hf1] at hc
        rw [List.cons_append] at hc
        simp only [List.head?_cons, Option.some.injEq] at hc
        exact hc ▸ w1 x (hf1 ▸ List.mem_cons_self x xs)
    · intro c hc
      rw [getLast?_mk5 h5] at hc
      exact w5 c (mem_of_getLast?_eq hc)
  have hsp : ' ' ∈ mk5 f1 f2 f3 f4 f5 := by
    rw [mk5]
    simp
  rw [parse]
  simp only [htrim]
  rw [parse_extended_not_at hstart, parse_special_of_space hsp, hstart]
  simp only [Bool.false_eq_true, if_false]
  rw [splitWs_mk5 h1 h2 h3 h4 h5 w1 w2 w3 w4 w5]

/-! ## Lemmas: numeric field tokens -/

theorem digits_ne_of_mem {s : Str} (hd : ∀ c ∈ s, isDigitCh c) {t : Str} {c : Char}
    (hc : c ∈ t) (hnc : ¬ isDigitCh c) : s ≠ t :=
  fun he => hnc (hd c (he ▸ hc))

theorem not_mem_of_digits {s : Str} (hd : ∀ c ∈ s, isDigitCh c) {c : Char}
    (hnc : ¬ isDigitCh c) : c ∉ s :=
  fun hm => hnc (hd c hm)

theorem contains_false_of_digits {s : Str} (hd : ∀ c ∈ s, isDigitCh c) {c : Char}
    (hnc : ¬ isDigitCh c) : s.contains c = false := by
  simpa using not_mem_of_digits hd hnc

theorem wsFree_of_digits {s : Str} (hd : ∀ c ∈ s, isDigitCh c) : wsFree s :=
  fun c hc => isWs_digit (hd c hc)

theorem startsWithChar_false_of_digits {s : Str} (hne : s ≠ [])
    (hd : ∀ c ∈ s, isDigitCh c) {d : Char} (hnd : ¬ isDigitCh d) :
    startsWithChar d s = false := by
  obtain ⟨c, cs, rfl, hc⟩ := head_digit_of_digits hne hd
  rw [startsWithChar]
  simpa using not_digit_ne hnd hc

theorem stripPre_star_digits {s : Str} (hne : s ≠ []) (hd : ∀ c ∈ s, isDigitCh c) :
    stripPre (strL "*/") s = none := by
  obtain ⟨c, cs, rfl, hc⟩ := head_digit_of_digits hne hd
  exact stripPre_cons_ne (not_digit_ne (by decide) hc) _ _

/-- A plain all-digit token is parsed as a zero-padded number. -/
theorem parse_single_element_digits {s : Str} (hne : s ≠ []) (hd : ∀ c ∈ s, isDigitCh c)
    {v : Nat} (hv : digitsValAux s 0 = some v) (hlt : v < U32MOD) (ft : FieldType) :
    parse_single_element s ft = .ok (pad2 v) := by
  rw [parse_single_element, stripPre_star_digits hne hd]
  rw [contains_false_of_digits hd (show ¬ isDigitCh '-' by decide)]
  rw [Bool.false_and]
  simp only [Bool.false_eq_true, if_false]
  rw [splitOnceC_not_mem (not_mem_of_digits hd (show ¬ isDigitCh '-' by decide))]
  rw [parseU32E_digits hne hd hv hlt]

theorem parse_single_element_natToStr {n : Nat} (hlt : n < U32MOD) (ft : FieldType) :
    parse_single_element (natToStr n) ft = .ok (pad2 n) :=
  parse_single_element_digits (natToStr_ne_nil n) (natToStr_digits n)
    (digitsValAux_natToStr n) hlt ft

/-- A whole field consisting of one all-digit token. -/
theorem parse_field_natToStr {n : Nat} (hlt : n < U32MOD) (ft : FieldType) :
    parse_field (natToStr n) ft = .ok (pad2 n) := by
  rw [parse_field]
  rw [if_neg (by
    simp only [beq_eq_false_iff_ne, ne_eq, Bool.not_eq_true]
    have := digits_ne_of_mem (natToStr_digits n) (show '*' ∈ strL "*" by decide)
      (show ¬ isDigitCh '*' by decide)
    simpa using this)]
  rw [splitC_not_mem (not_mem_of_digits (natToStr_digits n) (show ¬ isDigitCh ',' by decide))]
  simp only [List.length_singleton, gt_iff_lt, lt_irrefl, if_false]
  exact parse_single_element_natToStr hlt ft

/-! ## Claim C1 -/

/-- C1 counterexample: the out-of-range minute literal 99 is accepted by
`parse` and embedded in the calendar expression, instead of producing a
range error. -/
theorem c1_counterexample :
    parse (strL "99 * * * *") =
      .ok ⟨some (strL "*-*-* *:99:00"), none, false, none⟩ := by decide

theorem cal_hour_eq (ph : Str) :
    strL "*-*-* " ++ (ph ++ ':' :: strL "*") ++ strL ":00" =
      strL "*-*-* " ++ ph ++ strL ":*:00" := by
  simp only [List.append_assoc]
  rfl

theorem cal_dom_eq (ph : Str) :
    strL "*-*-" ++ ((ph ++ ' ' :: strL "*") ++ ':' :: strL "*") ++ strL ":00" =
      strL "*-*-" ++ ph ++ strL " *:*:00" := by
  simp only [List.append_assoc]
  rfl

theorem cal_month_eq (ph : Str) :
    strL "*-" ++ (((ph ++ '-' :: strL "*") ++ ' ' :: strL "*") ++ ':' :: strL "*") ++
        strL ":00" =
      strL "*-" ++ ph ++ strL "-* *:*:00" := by
  simp only [List.append_assoc]
  rfl

/-- C1 (amended): no range validation happens on any of the four numeric
fields of the standard five-field path: every `u32` literal `n`, however
large, is accepted as the minute, the hour, the day-of-month or the month
field and emitted zero-padded in the calendar expression. -/
theorem c1_amended : ∀ n : Nat, n < U32MOD →
    parse (mk5 (natToStr n) (strL "*") (strL "*") (strL "*") (strL "*")) =
      .ok ⟨some (strL "*-*-* *:" ++ pad2 n ++ strL ":00"), none, false, none⟩ ∧
    parse (mk5 (strL "*") (natToStr n) (strL "*") (strL "*") (strL "*")) =
      .ok ⟨some (strL "*-*-* " ++ pad2 n ++ strL ":*:00"), none, false, none⟩ ∧
    parse (mk5 (strL "*") (strL "*") (natToStr n) (strL "*") (strL "*")) =
      .ok ⟨some (strL "*-*-" ++ pad2 n ++ strL " *:*:00"), none, false, none⟩ ∧
    parse (mk5 (strL "*") (strL "*") (strL "*") (natToStr n) (strL "*")) =
      .ok ⟨some (strL "*-" ++ pad2 n ++ strL "-* *:*:00"), none, false, none⟩ := by
  intro n hn
  have hne := natToStr_ne_nil n
  have hdig := natToStr_digits n
  have hwf := wsFree_of_digits hdig
  have hstar : ∀ ft, parse_field (strL "*") ft = .ok (strL "*") := fun ft => rfl
  have hdowstar : parse_dow_field (strL "*") = .ok none := rfl
  have hfld : ∀ ft, parse_field (natToStr n) ft = .ok (pad2 n) :=
    fun ft => parse_field_natToStr hn ft
  refine ⟨?_, ?_, ?_, ?_⟩
  · rw [parse_mk5 hne (by decide) (by decide) (by decide) (by decide)
      hwf (by decide) (by decide) (by decide) (by decide)
      (startsWithChar_false_of_digits hne hdig (by decide))]
    rw [parse_standard, if_neg (by simp)]
    simp only [List.getD_cons_zero, List.getD_cons_succ, hfld, hstar, hdowstar, Res.bind]
    rfl
  · rw [parse_mk5 (by decide) hne (by decide) (by decide) (by decide)
      (by decide) hwf (by decide) (by decide) (by decide) (by decide)]
    rw [parse_standard, if_neg (by simp)]
    simp only [List.getD_cons_zero, List.getD_cons_succ, hfld, hstar, hdowstar, Res.bind]
    rw [← cal_hour_eq (pad2 n)]
    rfl
  · rw [parse_mk5 (by decide) (by decide) hne (by decide) (by decide)
      (by decide) (by decide) hwf (by decide) (by decide) (by decide)]
    rw [parse_standard, if_neg (by simp)]
    simp only [List.getD_cons_zero, List.getD_cons_succ, hfld, hstar, hdowstar, Res.bind]
    rw [← cal_dom_eq (pad2 n)]
    rfl
  · rw [parse_mk5 (by decide) (by decide) (by decide) hne (by decide)
      (by decide) (by decide) (by decide) hwf (by decide) (by decide)]
    rw [parse_standard, if_neg (by simp)]
    simp only [List.getD_cons_zero, List.getD_cons_succ, hfld, hstar, hdowstar, Res.bind]
    rw [← cal_month_eq (pad2 n)]
    rfl

/-- C1 amended, witness at `n = 99` in each of the four field positions. -/
theorem c1_witness :
    parse (mk5 (natToStr 99) (strL "*") (strL "*") (strL "*") (strL "*")) =
      .ok ⟨some (strL "*-*-* *:" ++ pad2 99 ++ strL ":00"), none, false, none⟩ ∧
    parse (mk5 (strL "*") (natToStr 99) (strL "*") (strL "*") (strL "*")) =
      .ok ⟨some (strL "*-*-* " ++ pad2 99 ++ strL ":*:00"), none, false, none⟩ ∧
    parse (mk5 (strL "*") (strL "*") (natToStr 99) (strL "*") (strL "*")) =
      .ok ⟨some (strL "*-*-" ++ pad2 99 ++ strL " *:*:00"), none, false, none⟩ ∧
    parse (mk5 (strL "*") (strL "*") (strL "*") (natToStr 99) (strL "*")) =
      .ok ⟨some (strL "*-" ++ pad2 99 ++ strL "-* *:*:00"), none, false, none⟩ :=
  c1_amended 99 (by decide)

/-! ## Claim C3 -/

/-- C3: `parse` is not total.  On the stepped-range token `0-5/0` the
expansion loop never terminates: the embedded `parse` reports fuel
exhaustion, and the loop indeed returns `none` for every fuel value, i.e.
the Rust `while` loop with step 0 runs forever. -/
theorem c3_nontermination :
    parse (strL "0-5/0 * * * *") = Res.hang ∧
    ∀ fuel : Nat, ∀ acc : List Str, stepLoop fuel 0 5 0 acc = none :=
  ⟨by decide, fun fuel acc => stepLoop_zero_none fuel 0 5 acc (by omega) (by decide)⟩

/-! ## Claim C6 -/

/-- C6 counterexample: the parser accepts step 0 in a stepped range (the
integer 0 parses as a `u32`), and then the expansion is not any finite
list of values: the element parse diverges. -/
theorem c6_counterexample :
    parse_single_element (strL "1-4/0") FieldType.Minute = Res.hang := by decide

/-- C6 (amended): for a stepped range `A-B/S` with `1 ≤ S`, `A ≤ B` and no
`u32` wrap-around, the produced fragment is the comma-joined ascending list
of exactly `(B − A) / S + 1` two-digit zero-padded values `A, A+S, …`. -/
theorem c6_amended : ∀ (a b s : Nat) (ft : FieldType), 1 ≤ s → a ≤ b → b + s < U32MOD →
    parse_single_element (natToStr a ++ '-' :: natToStr b ++ '/' :: natToStr s) ft =
      .ok (List.intercalate (strL ",") (steppedVals a b s)) ∧
    (steppedVals a b s).length = (b - a) / s + 1 ∧
    steppedVals a b s = (List.range ((b - a) / s + 1)).map (fun i => pad2 (a + i * s)) := by
  intro a b s ft hs hab hbs
  have ha32 : a < U32MOD := by omega
  have hb32 : b < U32MOD := by omega
  have hs32 : s < U32MOD := by omega
  have hda := natToStr_digits a
  have hdb := natToStr_digits b
  have hds := natToStr_digits s
  refine ⟨?_, by rw [steppedVals]; simp, rfl⟩
  have hmemd : '-' ∈ natToStr a ++ '-' :: natToStr b ++ '/' :: natToStr s := by simp
  have hmems : '/' ∈ natToStr a ++ '-' :: natToStr b ++ '/' :: natToStr s := by simp
  have hcd : (natToStr a ++ '-' :: natToStr b ++ '/' :: natToStr s).contains '-' = true := by
    simpa using hmemd
  have hcs : (natToStr a ++ '-' :: natToStr b ++ '/' :: natToStr s).contains '/' = true := by
    simpa using hmems
  have hnslash : '/' ∉ natToStr a ++ '-' :: natToStr b := by
    intro hm
    rcases List.mem_append.mp hm with h1 | h1
    · exact not_mem_of_digits hda (show ¬ isDigitCh '/' by decide) h1
    · rcases List.mem_cons.mp h1 with h2 | h2
      · exact absurd h2 (by decide)
      · exact not_mem_of_digits hdb (show ¬ isDigitCh '/' by decide) h2
  have hstrip : stripPre (strL "*/") (natToStr a ++ '-' :: natToStr b ++ '/' :: natToStr s) =
      none := by
    obtain ⟨c, cs, hae, hc⟩ := head_digit_of_digits (natToStr_ne_nil a) hda
    rw [hae, List.cons_append]
    exact stripPre_cons_ne (not_digit_ne (by decide) hc) _ _
  simp only [parse_single_element, hstrip, hcd, hcs, Bool.and_self, if_pos,
    splitOnceC_append hnslash,
    parseU32E_digits (natToStr_ne_nil s) hds (digitsValAux_natToStr s) hs32,
    splitOnceC_append (not_mem_of_digits hda (show ¬ isDigitCh '-' by decide)),
    parseU32E_digits (natToStr_ne_nil a) hda (digitsValAux_natToStr a) ha32,
    parseU32E_digits (natToStr_ne_nil b) hdb (digitsValAux_natToStr b) hb32,
    stepLoop_full hs hab hbs]

/-- C6 amended, witness: the range `0-30/10` as a minute field expands to
the four values `00,10,20,30`. -/
theorem c6_witness :
    parse_single_element (natToStr 0 ++ '-' :: natToStr 30 ++ '/' :: natToStr 10)
        FieldType.Minute = .ok (List.intercalate (strL ",") (steppedVals 0 30 10)) ∧
    List.intercalate (strL ",") (steppedVals 0 30 10) = strL "00,10,20,30" :=
  ⟨(c6_amended 0 30 10 FieldType.Minute (by decide) (by decide) (by decide)).1, by decide⟩

/-! ## Claim C8 -/

/-- C8: day-of-week tokens `0` and `7` both normalize to `"Sun"`; in a
five-field expression, replacing the day-of-week field `7` by `0` yields
the identical parse result (hence an equal calendar expression); numeric
weekday indices above 7 fail with the out-of-range error. -/
theorem c8_sun_normalization :
    (dow_to_name (strL "7") = .ok (strL "Sun") ∧ dow_to_name (strL "0") = .ok (strL "Sun")) ∧
    (∀ f1 f2 f3 f4 : Str, f1 ≠ [] → f2 ≠ [] → f3 ≠ [] → f4 ≠ [] →
      wsFree f1 → wsFree f2 → wsFree f3 → wsFree f4 →
      startsWithChar '@' f1 = false →
      parse (mk5 f1 f2 f3 f4 (strL "7")) = parse (mk5 f1 f2 f3 f4 (strL "0"))) ∧
    (∀ n : Nat, 8 ≤ n → n < U32MOD →
      dow_to_name (natToStr n) = .err (strL "Invalid day of week number: " ++ natToStr n)) := by
  refine ⟨⟨by decide, by decide⟩, ?_, ?_⟩
  · intro f1 f2 f3 f4 h1 h2 h3 h4 w1 w2 w3 w4 hat
    rw [parse_mk5 h1 h2 h3 h4 (by decide) w1 w2 w3 w4 (by decide) hat,
      parse_mk5 h1 h2 h3 h4 (by decide) w1 w2 w3 w4 (by decide) hat]
    rw [parse_standard, if_neg (by simp), parse_standard, if_neg (by simp)]
    simp only [List.getD_cons_zero, List.getD_cons_succ]
    have h7 : parse_dow_field (strL "7") = .ok (some (strL "Sun")) := by decide
    have h0 : parse_dow_field (strL "0") = .ok (some (strL "Sun")) := by decide
    rw [h7, h0]
  · intro n h8 hlt
    rw [dow_to_name, parseU32_natToStr hlt]
    have hne7 : n ≠ 7 := by omega
    simp only [hne7, if_false]
    rw [if_neg]
    have : DOW_NAMES.length = 7 := by decide
    rw [this]
    omega

/-- C8, witness: the concrete five-field pair `0 9 * * 7` / `0 9 * * 0`. -/
theorem c8_witness :
    parse (mk5 (strL "0") (strL "9") (strL "*") (strL "*") (strL "7")) =
      parse (mk5 (strL "0") (strL "9") (strL "*") (strL "*") (strL "0")) ∧
    dow_to_name (natToStr 8) = .err (strL "Invalid day of week number: " ++ natToStr 8) :=
  ⟨c8_sun_normalization.2.1 (strL "0") (strL "9") (strL "*") (strL "*")
      (by decide) (by decide) (by decide) (by decide)
      (by decide) (by decide) (by decide) (by decide) (by decide),
    c8_sun_normalization.2.2 8 (by decide) (by decide)⟩

/-! ## Claim C4 -/

/-- C4 counterexample: in the standard five-field path the full weekday
name `monday` does not resolve to `Mon`; it is rejected, because
`dow_to_name` matches only against the three-letter short names. -/
theorem c4_counterexample :
    parse (strL "0 9 * * monday") = .err (strL "Invalid day of week: monday") := by decide

theorem dowLookupShortPre_eq_find? (l : List Str) (lower : Str) :
    dowLookupShortPre l lower =
      l.find? (fun name => toLower name == lower || isPre lower (toLower name)) := by
  induction l with
  | nil => rfl
  | cons x xs ih =>
    rw [dowLookupShortPre, List.find?_cons]
    cases hx : (toLower x == lower || isPre lower (toLower x)) with
    | true => simp
    | false => simpa using ih

/-- C4 (amended): a non-numeric day-of-week token of the standard path is
resolved against the seven canonical short names only — accepted when its
lowercase form equals, or is a prefix of, a short name's lowercase form,
the first match in table order winning; tokens matching only a full name
(such as `monday`) are rejected. -/
theorem c4_amended : ∀ s : Str, parseU32 s = none → dow_to_name s = dowResolveSpec s := by
  intro s h
  rw [dow_to_name, dowResolveSpec]
  simp only [h, dowLookupShortPre_eq_find?]

/-- C4 amended, witness: the prefix token `mo` (non-numeric), which
resolves to `Mon` under both the code and the first-match specification. -/
theorem c4_witness :
    dow_to_name (strL "mo") = dowResolveSpec (strL "mo") ∧
    dow_to_name (strL "mo") = .ok (strL "Mon") :=
  ⟨c4_amended (strL "mo") (by decide), by decide⟩

/-! ## Claim C5 -/

/-- C5: an input whose trimmed form is not handled by any shorthand branch
and whose whitespace-separated field count is not 5 fails with the
structural wrong-number-of-fields error. -/
theorem c5_structural : ∀ s : Str, ¬ recognizedShorthand (trim s) →
    (splitWs (trim s)).length ≠ 5 →
    parse s = .err (structuralMsg (splitWs (trim s)).length) := by
  intro s hrec hlen
  rw [recognizedShorthand] at hrec
  push_neg at hrec
  obtain ⟨hext, hspec, hinc⟩ := hrec
  rw [parse]
  simp only [hext, hspec]
  by_cases hat : startsWithChar '@' (trim s) = true
  · simp only [hat, if_true, hinc hat]
    rw [parse_standard, if_pos hlen]
    rfl
  · simp only [hat, if_false]
    rw [parse_standard, if_pos hlen]
    rfl

/-- C5, witness at the three-field input of the repository's own test. -/
theorem c5_witness :
    ¬ recognizedShorthand (trim (strL "* * *")) ∧
    (splitWs (trim (strL "* * *"))).length ≠ 5 ∧
    parse (strL "* * *") = .err (structuralMsg (splitWs (trim (strL "* * *"))).length) :=
  ⟨by decide, by decide, c5_structural (strL "* * *") (by decide) (by decide)⟩

/-! ## Claim C7 -/

theorem bind_ok {α β : Type} {x : Res α} {f : α → Res β} {b : β}
    (h : Res.bind x f = .ok b) : ∃ a, x = .ok a ∧ f a = .ok b := by
  cases x with
  | ok a => exact ⟨a, rfl, h⟩
  | err e => cases h
  | hang => cases h
  | panicked m => cases h

theorem parse_extended_mutex {t : Str} {r : CronSchedule}
    (h : parse_extended t = .ok (some r)) : atMostOne r = true := by
  simp only [parse_extended] at h
  repeat' split at h
  all_goals first
    | (cases h <;> rfl)
    | simp at h

theorem parse_special_mutex {t : Str} {r : CronSchedule}
    (h : parse_special t = some r) : atMostOne r = true := by
  simp only [parse_special] at h
  repeat' split at h
  all_goals first
    | (cases h <;> rfl)
    | simp at h

theorem parse_standard_mutex {fields : List Str} {r : CronSchedule}
    (h : parse_standard fields = .ok r) : atMostOne r = true := by
  rw [parse_standard] at h
  split at h
  · cases h
  · obtain ⟨m1, _, h⟩ := bind_ok h
    obtain ⟨m2, _, h⟩ := bind_ok h
    obtain ⟨m3, _, h⟩ := bind_ok h
    obtain ⟨m4, _, h⟩ := bind_ok h
    obtain ⟨m5, _, h⟩ := bind_ok h
    cases h
    rfl

/-- C7: every schedule produced by `parse` populates at most one of the
calendar expression, the boot delay and the service marker; `@service`
yields neither a calendar nor a boot delay. -/
theorem c7_mutual_exclusion :
    (∀ (s : Str) (r : CronSchedule), parse s = .ok r → atMostOne r = true) ∧
    parse (strL "@service") = .ok ⟨none, none, true, some (strL "@service")⟩ := by
  refine ⟨?_, by decide⟩
  intro s r h
  simp only [parse] at h
  cases hext : parse_extended (trim s) with
  | err e => simp only [hext] at h; simp at h
  | hang => simp only [hext] at h; simp at h
  | panicked m => simp only [hext] at h; simp at h
  | ok o =>
    simp only [hext] at h
    cases o with
    | some sch =>
      cases h
      exact parse_extended_mutex hext
    | none =>
      cases hspec : parse_special (trim s) with
      | some sp =>
        simp only [hspec] at h
        cases h
        exact parse_special_mutex hspec
      | none =>
        simp only [hspec] at h
        split at h
        · cases hchk : check_incomplete (trim s) with
          | error e => simp only [hchk] at h; simp at h
          | ok u => simp only [hchk] at h; exact parse_standard_mutex h
        · exact parse_standard_mutex h

/-- C7, witness at `@daily`. -/
theorem c7_witness :
    atMostOne ⟨some (strL "*-*-* 00:00:00"), none, false, some (strL "@daily")⟩ = true :=
  c7_mutual_exclusion.1 (strL "@daily") _ (by decide)

/-! ## Lemmas: time specifications and the extended path -/

theorem lt_U32MOD_of_le_59 {n : Nat} (h : n ≤ 59) : n < U32MOD := by
  unfold U32MOD
  omega

theorem charDigit_some {c : Char} {d : Nat} (h : charDigit c = some d) : isDigitCh c := by
  rw [charDigit] at h
  split at h
  · assumption
  · cases h

theorem digitsValAux_some_digits :
    ∀ {s : Str} {acc v : Nat}, digitsValAux s acc = some v → ∀ c ∈ s, isDigitCh c := by
  intro s
  induction s with
  | nil => intro acc v _ c hc; cases hc
  | cons x xs ih =>
    intro acc v h c hc
    rw [digitsValAux] at h
    cases hcd : charDigit x with
    | none => rw [hcd] at h; cases h
    | some d =>
      rw [hcd] at h
      rcases List.mem_cons.mp hc with h1 | h1
      · exact h1 ▸ charDigit_some hcd
      · exact ih h c h1

theorem parseU32E_ok_ne_nil {s : Str} {v : Nat} (h : parseU32E s = .ok v) : s ≠ [] := by
  intro he
  rw [he] at h
  cases h

theorem parseU32E_ok_chars {s : Str} {v : Nat} (h : parseU32E s = .ok v) :
    ∀ c ∈ s, isDigitCh c ∨ c = '+' := by
  simp only [parseU32E] at h
  split at h
  · cases h
  · split at h
    · cases h
    · intro c hc
      cases hdv : digitsValAux (stripPlusOne s) 0 with
      | none => simp only [hdv] at h; cases h
      | some w =>
        have hbd := digitsValAux_some_digits hdv
        cases s with
        | nil => cases hc
        | cons x xs =>
          rw [stripPlusOne] at hbd
          by_cases hx : (x == '+') = true
          · have hx2 : x = '+' := by simpa using hx
            rw [if_pos hx] at hbd
            rcases List.mem_cons.mp hc with h1 | h1
            · exact Or.inr (h1.trans hx2)
            · exact Or.inl (hbd c h1)
          · rw [if_neg hx] at hbd
            exact Or.inl (hbd c hc)

theorem parse_time_spec_ok_bounds {t : Str} {h m : Nat}
    (hts : parse_time_spec t = .ok (h, m)) : h ≤ 23 ∧ m ≤ 59 := by
  rw [parse_time_spec] at hts
  cases hsp : splitOnceC ':' t with
  | some p =>
    obtain ⟨a, b⟩ := p
    rw [hsp] at hts
    cases hpa : parseU32E a with
    | error e => simp only [hpa] at hts; cases hts
    | ok hour =>
      simp only [hpa] at hts
      cases hpb : parseU32E b with
      | error e => simp only [hpb] at hts; cases hts
      | ok minute =>
        simp only [hpb] at hts
        split at hts
        · cases hts
        · split at hts
          · cases hts
          · cases hts
            omega
  | none =>
    rw [hsp] at hts
    cases hpt : parseU32E t with
    | error e => simp only [hpt] at hts; cases hts
    | ok hour =>
      simp only [hpt] at hts
      split at hts
      · cases hts
      · cases hts
        omega

theorem parse_time_spec_ok_chars {t : Str} {h m : Nat}
    (hts : parse_time_spec t = .ok (h, m)) :
    ∀ c ∈ t, isDigitCh c ∨ c = ':' ∨ c = '+' := by
  rw [parse_time_spec] at hts
  cases hsp : splitOnceC ':' t with
  | some p =>
    obtain ⟨a, b⟩ := p
    rw [hsp] at hts
    obtain ⟨hteq, _⟩ := splitOnceC_eq_some hsp
    cases hpa : parseU32E a with
    | error e => simp only [hpa] at hts; cases hts
    | ok hour =>
      simp only [hpa] at hts
      cases hpb : parseU32E b with
      | error e => simp only [hpb] at hts; cases hts
      | ok minute =>
        intro c hc
        rw [hteq] at hc
        rcases List.mem_append.mp hc with h1 | h1
        · rcases parseU32E_ok_chars hpa c h1 with h2 | h2
          · exact Or.inl h2
          · exact Or.inr (Or.inr h2)
        · rcases List.mem_cons.mp h1 with h2 | h2
          · exact Or.inr (Or.inl h2)
          · rcases parseU32E_ok_chars hpb c h2 with h3 | h3
            · exact Or.inl h3
            · exact Or.inr (Or.inr h3)
  | none =>
    rw [hsp] at hts
    cases hpt : parseU32E t with
    | error e => simp only [hpt] at hts; cases hts
    | ok hour =>
      intro c hc
      rcases parseU32E_ok_chars hpt c hc with h2 | h2
      · exact Or.inl h2
      · exact Or.inr (Or.inr h2)

theorem parse_time_spec_ok_ne_nil {t : Str} {h m : Nat}
    (hts : parse_time_spec t = .ok (h, m)) : t ≠ [] := by
  rw [parse_time_spec] at hts
  cases hsp : splitOnceC ':' t with
  | some p =>
    obtain ⟨a, b⟩ := p
    obtain ⟨hteq, _⟩ := splitOnceC_eq_some hsp
    rw [hteq]
    simp
  | none =>
    rw [hsp] at hts
    cases hpt : parseU32E t with
    | error e => simp only [hpt] at hts; cases hts
    | ok hour => exact parseU32E_ok_ne_nil hpt

theorem time_chars_not_ws {c : Char} (h : isDigitCh c ∨ c = ':' ∨ c = '+') :
    isWs c = false := by
  rcases h with h | h | h
  · exact isWs_digit h
  · rw [h]; decide
  · rw [h]; decide

theorem time_chars_not_slash {c : Char} (h : isDigitCh c ∨ c = ':' ∨ c = '+') :
    c ≠ '/' := by
  rcases h with h | h | h
  · exact not_digit_ne (by decide) h
  · rw [h]; decide
  · rw [h]; decide

theorem format_time_chars (h m : Nat) : ∀ c ∈ format_time h m, isDigitCh c ∨ c = ':' := by
  rw [format_time]
  split
  · intro c hc
    exact Or.inl (natToStr_digits h c hc)
  · intro c hc
    rcases List.mem_append.mp hc with h1 | h1
    · exact Or.inl (natToStr_digits h c h1)
    · rcases List.mem_cons.mp h1 with h2 | h2
      · exact Or.inr h2
      · exact Or.inl (pad2_digits m c h2)

theorem format_time_ne_nil (h m : Nat) : format_time h m ≠ [] := by
  rw [format_time]
  split
  · exact natToStr_ne_nil h
  · simp [natToStr_ne_nil h]

/-- The time round-trip: re-parsing the minimal display of a valid time
yields the same hour and minute. -/
theorem parse_time_spec_format_time {h m : Nat} (hh : h ≤ 23) (hm : m ≤ 59) :
    parse_time_spec (format_time h m) = .ok (h, m) := by
  have hhU : h < U32MOD := lt_U32MOD_of_le_59 (by omega)
  have hmU : m < U32MOD := lt_U32MOD_of_le_59 hm
  rw [format_time]
  by_cases hm0 : m = 0
  · subst hm0
    rw [if_pos rfl, parse_time_spec,
      splitOnceC_not_mem (not_mem_of_digits (natToStr_digits h) (show ¬ isDigitCh ':' by decide))]
    simp only [parseU32E_natToStr hhU]
    rw [if_neg (by omega)]
  · rw [if_neg hm0, parse_time_spec,
      splitOnceC_append (not_mem_of_digits (natToStr_digits h) (show ¬ isDigitCh ':' by decide))]
    simp only [parseU32E_natToStr hhU, parseU32E_pad2 hmU]
    rw [if_neg (by omega), if_neg (by omega)]

theorem getLast?_ch_chunk {x : Str} (hx : x ≠ []) (f : Str) (c : Char) :
    (f ++ c :: x).getLast? = x.getLast? := by
  rw [List.getLast?_append_of_ne_nil f (by simp)]
  rw [show (c :: x) = [c] ++ x from rfl]
  rw [List.getLast?_append_of_ne_nil [c] hx]

/-- Strings of the shape `@…/t` with a whitespace-free tail are their own
trim. -/
theorem trim_kw_slash {kw t : Str} (hkw : kw.head? = some '@') (htne : t ≠ [])
    (htc : ∀ c ∈ t, isWs c = false) : trim (kw ++ '/' :: t) = kw ++ '/' :: t := by
  apply trim_eq_self
  · intro c hc
    cases kw with
    | nil => cases hkw
    | cons x xs =>
      rw [List.head?_cons, Option.some.injEq] at hkw
      rw [List.cons_append, List.head?_cons, Option.some.injEq] at hc
      rw [← hc, hkw]
      decide
  · intro c hc
    rw [getLast?_ch_chunk htne] at hc
    exact htc c (mem_of_getLast?_eq hc)

theorem dowLookupFull_mem : ∀ (ps : List (Str × Str)) (n : Str) {r : Str},
    dowLookupFull ps n = some r → r ∈ ps.map Prod.snd := by
  intro ps
  induction ps with
  | nil => intro n r h; cases h
  | cons p rest ih =>
    intro n r h
    obtain ⟨full, shortN⟩ := p
    rw [dowLookupFull] at h
    split at h
    · cases h
      simp
    · rw [List.map_cons]
      exact List.mem_cons_of_mem _ (ih n h)

theorem dowLookupShortEq_mem : ∀ (l : List Str) (n : Str) {r : Str},
    dowLookupShortEq l n = some r → r ∈ l := by
  intro l
  induction l with
  | nil => intro n r h; cases h
  | cons x xs ih =>
    intro n r h
    rw [dowLookupShortEq] at h
    split at h
    · cases h
      exact List.mem_cons_self x xs
    · exact List.mem_cons_of_mem _ (ih n h)

theorem DOW_TABLE_snd : DOW_TABLE.map Prod.snd = DOW_NAMES := by decide

theorem parse_dow_name_mem {s r : Str} (h : parse_dow_name s = .ok r) : r ∈ DOW_NAMES := by
  rw [parse_dow_name] at h
  cases hf : dowLookupFull DOW_TABLE (toLower s) with
  | some d =>
    simp only [hf] at h
    cases h
    exact DOW_TABLE_snd ▸ dowLookupFull_mem DOW_TABLE (toLower s) hf
  | none =>
    simp only [hf] at h
    cases hs : dowLookupShortEq DOW_NAMES (toLower s) with
    | some d =>
      simp only [hs] at h
      cases h
      exact dowLookupShortEq_mem DOW_NAMES (toLower s) hs
    | none => simp only [hs] at h; cases h

theorem try_parse_dow_keyword_mem {k r : Str} (h : try_parse_dow_keyword k = some r) :
    r ∈ DOW_NAMES := by
  rw [try_parse_dow_keyword] at h
  cases hp : stripPre (strL "@") k with
  | none => simp only [hp] at h; cases h
  | some name =>
    simp only [hp] at h
    cases hf : dowLookupFull DOW_TABLE name with
    | some d =>
      simp only [hf] at h
      cases h
      exact DOW_TABLE_snd ▸ dowLookupFull_mem DOW_TABLE name hf
    | none =>
      simp only [hf] at h
      exact dowLookupShortEq_mem DOW_NAMES name h

theorem startsWithChar_head {s : Str} {c : Char} (h : s.head? = some c) :
    startsWithChar c s = true := by
  cases s with
  | nil => cases h
  | cons x xs =>
    rw [List.head?_cons, Option.some.injEq] at h
    simp [startsWithChar, h]

theorem splitC_two {kw t : Str} (hk : '/' ∉ kw) (ht : '/' ∉ t) :
    splitC '/' (kw ++ '/' :: t) = [kw, t] := by
  rw [splitC_append hk, splitC_not_mem ht]

theorem parse_of_extended_some {s : Str} {sch : CronSchedule}
    (htrim : trim s = s) (h : parse_extended s = .ok (some sch)) : parse s = .ok sch := by
  simp only [parse, htrim, h]

theorem try_parse_ordinal_bounds {k : Str} {d : Nat} (h : try_parse_ordinal k = some d) :
    1 ≤ d ∧ d ≤ 31 := by
  rw [try_parse_ordinal] at h
  cases hp : stripPre (strL "@") k with
  | none => simp only [hp] at h; cases h
  | some s =>
    simp only [hp] at h
    cases hsuf : (stripSuf (strL "st") s <|> stripSuf (strL "nd") s <|>
        stripSuf (strL "rd") s <|> stripSuf (strL "th") s) with
    | none => simp only [hsuf] at h; cases h
    | some numStr =>
      simp only [hsuf] at h
      cases hn : parseU32 numStr with
      | none => simp only [hn] at h; cases h
      | some n =>
        simp only [hn] at h
        split at h
        · cases h
          assumption
        · cases h

/-! ## Re-parsing the display forms of the extended shorthands -/

/-- Re-parsing `@daily/<time>` produces exactly the daily schedule. -/
theorem ext_daily_core {t : Str} {h m : Nat} (hts : parse_time_spec t = .ok (h, m)) :
    parse (strL "@daily" ++ '/' :: t) =
      .ok ⟨some (strL "*-*-* " ++ pad2 h ++ ':' :: pad2 m ++ strL ":00"), none, false,
           some (strL "@daily" ++ '/' :: format_time h m)⟩ := by
  have htchars := parse_time_spec_ok_chars hts
  have htne := parse_time_spec_ok_ne_nil hts
  have htnws : ∀ c ∈ t, isWs c = false := fun c hc => time_chars_not_ws (htchars c hc)
  have htns : '/' ∉ t := fun hm2 => time_chars_not_slash (htchars _ hm2) rfl
  apply parse_of_extended_some (trim_kw_slash (by decide) htne htnws)
  have h1 : startsWithChar '@' (strL "@daily" ++ '/' :: t) = true := by
    rw [startsWithChar_append (by decide)]
    decide
  have h2 : (strL "@daily" ++ '/' :: t).contains '/' = true := by simp
  rw [parse_extended, if_neg (by simp [h1, h2])]
  rw [splitC_two (by decide) htns]
  have hlow : toLower (strL "@daily") = strL "@daily" := by decide
  simp only [List.isEmpty_cons, Bool.false_eq_true, if_false, List.headD_cons, hlow,
    List.length_cons, List.length_nil, List.getD_cons_succ, List.getD_cons_zero, hts,
    beq_self_eq_true, if_true]
  simp [format_time_display]

/-- Re-parsing `@<weekday-keyword>/<time>`: generic over the keyword, with
the table facts supplied as hypotheses. -/
theorem ext_dow_core {kw dow0 t : Str} {h m : Nat}
    (hkhead : kw.head? = some '@') (hks : '/' ∉ kw)
    (hlow : toLower kw = kw)
    (hnd : (kw == strL "@daily") = false)
    (hnw : (kw == strL "@weekly") = false)
    (hnm : (kw == strL "@monthly") = false)
    (hdk : try_parse_dow_keyword kw = some dow0)
    (hts : parse_time_spec t = .ok (h, m)) :
    parse (kw ++ '/' :: t) =
      .ok ⟨some (dow0 ++ strL " *-*-* " ++ pad2 h ++ ':' :: pad2 m ++ strL ":00"), none, false,
           some ('@' :: toLower dow0 ++ '/' :: format_time h m)⟩ := by
  have htchars := parse_time_spec_ok_chars hts
  have htne := parse_time_spec_ok_ne_nil hts
  have htnws : ∀ c ∈ t, isWs c = false := fun c hc => time_chars_not_ws (htchars c hc)
  have htns : '/' ∉ t := fun hm2 => time_chars_not_slash (htchars _ hm2) rfl
  have hkne : kw ≠ [] := by
    intro he
    rw [he] at hkhead
    cases hkhead
  apply parse_of_extended_some (trim_kw_slash hkhead htne htnws)
  have h1 : startsWithChar '@' (kw ++ '/' :: t) = true := by
    rw [startsWithChar_append hkne]
    exact startsWithChar_head hkhead
  have h2 : (kw ++ '/' :: t).contains '/' = true := by simp
  rw [parse_extended, if_neg (by simp [h1, h2])]
  rw [splitC_two hks htns]
  simp only [List.isEmpty_cons, Bool.false_eq_true, if_false, List.headD_cons, hlow,
    hnd, hnw, hnm, hdk, List.length_cons, List.length_nil, List.getD_cons_succ,
    List.getD_cons_zero, hts, if_true]
  simp

/-- Re-parsing `@<ordinal>/<time>`: generic over the keyword, with the
keyword facts supplied as hypotheses. -/
theorem ext_ord_core {kw t : Str} {dy h m : Nat}
    (hkhead : kw.head? = some '@') (hks : '/' ∉ kw)
    (hlow : toLower kw = kw)
    (hnd : (kw == strL "@daily") = false)
    (hnw : (kw == strL "@weekly") = false)
    (hnm : (kw == strL "@monthly") = false)
    (hdk : try_parse_dow_keyword kw = none)
    (hord : try_parse_ordinal kw = some dy)
    (hts : parse_time_spec t = .ok (h, m)) :
    parse (kw ++ '/' :: t) =
      .ok ⟨some (strL "*-*-" ++ pad2 dy ++ ' ' :: pad2 h ++ ':' :: pad2 m ++ strL ":00"),
           none, false, some ('@' :: ordinal dy ++ '/' :: format_time h m)⟩ := by
  have htchars := parse_time_spec_ok_chars hts
  have htne := parse_time_spec_ok_ne_nil hts
  have htnws : ∀ c ∈ t, isWs c = false := fun c hc => time_chars_not_ws (htchars c hc)
  have htns : '/' ∉ t := fun hm2 => time_chars_not_slash (htchars _ hm2) rfl
  have hkne : kw ≠ [] := by
    intro he
    rw [he] at hkhead
    cases hkhead
  apply parse_of_extended_some (trim_kw_slash hkhead htne htnws)
  have h1 : startsWithChar '@' (kw ++ '/' :: t) = true := by
    rw [startsWithChar_append hkne]
    exact startsWithChar_head hkhead
  have h2 : (kw ++ '/' :: t).contains '/' = true := by simp
  rw [parse_extended, if_neg (by simp [h1, h2])]
  rw [splitC_two hks htns]
  simp only [List.isEmpty_cons, Bool.false_eq_true, if_false, List.headD_cons, hlow,
    hnd, hnw, hnm, hdk, hord, List.length_cons, List.length_nil, List.getD_cons_succ,
    List.getD_cons_zero, hts, if_true]
  simp

/-! ## Claim C9 -/

/-- C9: `@daily/H` and `@daily/H:00` parse to the same calendar expression
with the minute-zero display form omitting the minute component. -/
theorem c9_daily_minute_omitted : ∀ h : Nat, h ≤ 23 →
    parse (strL "@daily" ++ '/' :: natToStr h) =
      .ok ⟨some (strL "*-*-* " ++ pad2 h ++ strL ":00:00"), none, false,
           some (strL "@daily" ++ '/' :: natToStr h)⟩ ∧
    parse (strL "@daily" ++ '/' :: (natToStr h ++ strL ":00")) =
      .ok ⟨some (strL "*-*-* " ++ pad2 h ++ strL ":00:00"), none, false,
           some (strL "@daily" ++ '/' :: natToStr h)⟩ := by
  intro h hh
  have hfmt : format_time h 0 = natToStr h := by rw [format_time, if_pos rfl]
  have ht1 : parse_time_spec (natToStr h) = .ok (h, 0) := by
    have hx := parse_time_spec_format_time hh (show (0 : Nat) ≤ 59 by omega)
    rw [hfmt] at hx
    exact hx
  have ht2 : parse_time_spec (natToStr h ++ strL ":00") = .ok (h, 0) := by
    rw [show natToStr h ++ strL ":00" = natToStr h ++ ':' :: strL "00" from rfl]
    have hhU : h < U32MOD := lt_U32MOD_of_le_59 (le_trans hh (by omega))
    rw [parse_time_spec,
      splitOnceC_append (not_mem_of_digits (natToStr_digits h) (show ¬ isDigitCh ':' by decide))]
    have h00 : parseU32E (strL "00") = .ok 0 := by decide
    simp only [parseU32E_natToStr hhU, h00]
    rw [if_neg (by omega), if_neg (by omega)]
  have hpad0 : ':' :: (pad2 0 ++ strL ":00") = strL ":00:00" := by decide
  have hcal : strL "*-*-* " ++ pad2 h ++ ':' :: pad2 0 ++ strL ":00" =
      strL "*-*-* " ++ pad2 h ++ strL ":00:00" := by
    simp [List.append_assoc, hpad0]
  constructor
  · have hx := ext_daily_core ht1
    rw [hcal, hfmt] at hx
    exact hx
  · have hx := ext_daily_core ht2
    rw [hcal, hfmt] at hx
    exact hx

/-- C9, witness at hour 9: both `@daily/9:00` and `@daily/9` yield calendar
`*-*-* 09:00:00` and display `@daily/9`. -/
theorem c9_witness :
    parse (strL "@daily" ++ '/' :: natToStr 9) =
      .ok ⟨some (strL "*-*-* " ++ pad2 9 ++ strL ":00:00"), none, false,
           some (strL "@daily" ++ '/' :: natToStr 9)⟩ ∧
    parse (strL "@daily" ++ '/' :: (natToStr 9 ++ strL ":00")) =
      .ok ⟨some (strL "*-*-* " ++ pad2 9 ++ strL ":00:00"), none, false,
           some (strL "@daily" ++ '/' :: natToStr 9)⟩ :=
  c9_daily_minute_omitted 9 (by decide)

/-! ## Claim C10 -/

/-- C10: the empty keyword between `@` and the slash resolves to Sunday:
for every time spec the parser accepts, `@/<time>` parses to the Sunday
calendar expression, because the empty string is a prefix of the first
full weekday name in table order. -/
theorem c10_empty_keyword : ∀ (t : Str) (h m : Nat), parse_time_spec t = .ok (h, m) →
    parse ('@' :: '/' :: t) =
      .ok ⟨some (strL "Sun *-*-* " ++ pad2 h ++ ':' :: pad2 m ++ strL ":00"), none, false,
           some (strL "@sun" ++ '/' :: format_time h m)⟩ := by
  intro t h m hts
  have hx := @ext_dow_core (strL "@") (strL "Sun") t h m (by decide) (by decide) (by decide)
    (by decide) (by decide) (by decide) (by decide) hts
  have hcal : (strL "Sun" : Str) ++ strL " *-*-* " ++ pad2 h ++ ':' :: pad2 m ++ strL ":00" =
      strL "Sun *-*-* " ++ pad2 h ++ ':' :: pad2 m ++ strL ":00" := rfl
  rw [hcal] at hx
  exact hx

/-- C10, witness: `@/9` parses to `Sun *-*-* 09:00:00` with display
`@sun/9`. -/
theorem c10_witness :
    parse ('@' :: '/' :: strL "9") =
      .ok ⟨some (strL "Sun *-*-* " ++ pad2 9 ++ ':' :: pad2 0 ++ strL ":00"), none, false,
           some (strL "@sun" ++ '/' :: format_time 9 0)⟩ :=
  c10_empty_keyword (strL "9") 9 0 (by decide)

/-! ## Claim C2 -/

theorem parse_standard_display {fields : List Str} {r : CronSchedule}
    (h : parse_standard fields = .ok r) : r.display = none := by
  rw [parse_standard] at h
  split at h
  · cases h
  · obtain ⟨m1, _, h⟩ := bind_ok h
    obtain ⟨m2, _, h⟩ := bind_ok h
    obtain ⟨m3, _, h⟩ := bind_ok h
    obtain ⟨m4, _, h⟩ := bind_ok h
    obtain ⟨m5, _, h⟩ := bind_ok h
    cases h
    rfl

/-- Round-trip for the classic shorthand table: re-parsing the display of
a table entry reproduces its calendar expression. -/
theorem special_roundtrip {t : Str} {sch : CronSchedule} {d : Str}
    (h : parse_special t = some sch) (hd : sch.display = some d) :
    ∃ sch2, parse d = .ok sch2 ∧ sch2.on_calendar = sch.on_calendar := by
  simp only [parse_special] at h
  split_ifs at h
  all_goals (cases h; cases hd)
  · exact ⟨⟨some (strL "*-01-01 00:00:00"), none, false, some (strL "@yearly")⟩, by decide, rfl⟩
  · exact ⟨⟨some (strL "*-*-01 00:00:00"), none, false, some (strL "@monthly")⟩, by decide, rfl⟩
  · exact ⟨⟨some (strL "Mon *-*-* 00:00:00"), none, false, some (strL "@weekly")⟩, by decide, rfl⟩
  · exact ⟨⟨some (strL "*-*-* 00:00:00"), none, false, some (strL "@daily")⟩, by decide, rfl⟩
  · exact ⟨⟨some (strL "*-*-* *:00:00"), none, false, some (strL "@hourly")⟩, by decide, rfl⟩
  · exact ⟨⟨none, some (strL "1min"), false, some (strL "@reboot")⟩, by decide, rfl⟩
  · exact ⟨⟨none, none, true, some (strL "@service")⟩, by decide, rfl⟩

/-- Keyword facts for re-parsing `@<lowercase-short-name>`. -/
theorem dow_kw_props : ∀ dow ∈ DOW_NAMES,
    ('@' :: toLower dow).head? = some '@' ∧ '/' ∉ ('@' :: toLower dow) ∧
    toLower ('@' :: toLower dow) = '@' :: toLower dow ∧
    (('@' :: toLower dow) == strL "@daily") = false ∧
    (('@' :: toLower dow) == strL "@weekly") = false ∧
    (('@' :: toLower dow) == strL "@monthly") = false ∧
    try_parse_dow_keyword ('@' :: toLower dow) = some dow := by
  intro dow hmem
  fin_cases hmem <;> decide

/-- Keyword facts for re-parsing `@<recomputed-ordinal>`. -/
theorem ord_kw_props : ∀ dy : Nat, 1 ≤ dy → dy ≤ 31 →
    ('@' :: ordinal dy).head? = some '@' ∧ '/' ∉ ('@' :: ordinal dy) ∧
    toLower ('@' :: ordinal dy) = '@' :: ordinal dy ∧
    (('@' :: ordinal dy) == strL "@daily") = false ∧
    (('@' :: ordinal dy) == strL "@weekly") = false ∧
    (('@' :: ordinal dy) == strL "@monthly") = false ∧
    try_parse_dow_keyword ('@' :: ordinal dy) = none ∧
    try_parse_ordinal ('@' :: ordinal dy) = some dy := by
  intro dy h1 h31
  interval_cases dy <;> decide

/-- Inversion of a successful extended parse: the schedule is a daily, a
weekday, or an ordinal shape with in-range components. -/
theorem parse_extended_inv {t : Str} {sch : CronSchedule}
    (h : parse_extended t = .ok (some sch)) :
    (∃ h9 m9, h9 ≤ 23 ∧ m9 ≤ 59 ∧ sch = dailySchedule h9 m9) ∨
    (∃ dow h9 m9, dow ∈ DOW_NAMES ∧ h9 ≤ 23 ∧ m9 ≤ 59 ∧ sch = dowSchedule dow h9 m9) ∨
    (∃ dy h9 m9, 1 ≤ dy ∧ dy ≤ 31 ∧ h9 ≤ 23 ∧ m9 ≤ 59 ∧ sch = ordSchedule dy h9 m9) := by
  simp only [parse_extended] at h
  split at h
  · cases h
  · split at h
    · cases h
    · split at h
      · -- @daily
        split at h
        · cases h
        · split at h
          · rename_i hour minute heq
            cases h
            obtain ⟨hh, hm⟩ := parse_time_spec_ok_bounds heq
            exact Or.inl ⟨hour, minute, hh, hm, rfl⟩
          · cases h
          · cases h
          · cases h
      · split at h
        · -- @weekly
          split at h
          · cases h
          · split at h
            · rename_i dow heqd
              split at h
              · rename_i hour minute heq
                cases h
                obtain ⟨hh, hm⟩ := parse_time_spec_ok_bounds heq
                exact Or.inr (Or.inl ⟨dow, hour, minute, parse_dow_name_mem heqd, hh, hm, rfl⟩)
              · cases h
              · cases h
              · cases h
            · cases h
            · cases h
            · cases h
        · split at h
          · -- @monthly
            split at h
            · cases h
            · split at h
              · cases h
              · rename_i day heqday
                split at h
                · cases h
                · rename_i hrange
                  split at h
                  · rename_i hour minute heq
                    cases h
                    obtain ⟨hh, hm⟩ := parse_time_spec_ok_bounds heq
                    push_neg at hrange
                    exact Or.inr (Or.inr ⟨day, hour, minute, hrange.1, hrange.2, hh, hm, rfl⟩)
                  · cases h
                  · cases h
                  · cases h
          · -- weekday keyword / ordinal keyword
            split at h
            · rename_i dow heqk
              split at h
              · cases h
              · split at h
                · rename_i hour minute heq
                  cases h
                  obtain ⟨hh, hm⟩ := parse_time_spec_ok_bounds heq
                  exact Or.inr (Or.inl ⟨dow, hour, minute, try_parse_dow_keyword_mem heqk, hh, hm, rfl⟩)
                · cases h
                · cases h
                · cases h
            · split at h
              · rename_i dy heqo
                split at h
                · cases h
                · split at h
                  · rename_i hour minute heq
                    cases h
                    obtain ⟨hh, hm⟩ := parse_time_spec_ok_bounds heq
                    obtain ⟨hd1, hd31⟩ := try_parse_ordinal_bounds heqo
                    exact Or.inr (Or.inr ⟨dy, hour, minute, hd1, hd31, hh, hm, rfl⟩)
                  · cases h
                  · cases h
                  · cases h
              · split at h
                · cases h
                · cases h

/-- C2: any successfully parsed schedule carrying a display form (i.e.
produced by the extended or classic shorthand paths) re-parses from that
display form to a schedule with an equal calendar expression. -/
theorem c2_roundtrip : ∀ (s : Str) (sch : CronSchedule) (d : Str),
    parse s = .ok sch → sch.display = some d →
    ∃ sch2, parse d = .ok sch2 ∧ sch2.on_calendar = sch.on_calendar := by
  intro s sch d h hd
  simp only [parse] at h
  cases hext : parse_extended (trim s) with
  | err e => simp only [hext] at h; cases h
  | hang => simp only [hext] at h; cases h
  | panicked m2 => simp only [hext] at h; cases h
  | ok o =>
    simp only [hext] at h
    cases o with
    | some sch0 =>
      cases h
      rcases parse_extended_inv hext with
        ⟨h9, m9, hh, hm, rfl⟩ | ⟨dow, h9, m9, hmem, hh, hm, rfl⟩ |
        ⟨dy, h9, m9, hd1, hd31, hh, hm, rfl⟩
      · simp only [dailySchedule] at hd ⊢
        cases hd
        exact ⟨_, ext_daily_core (parse_time_spec_format_time hh hm), rfl⟩
      · obtain ⟨p1, p2, p3, p4, p5, p6, p7⟩ := dow_kw_props dow hmem
        simp only [dowSchedule] at hd ⊢
        cases hd
        exact ⟨_, ext_dow_core p1 p2 p3 p4 p5 p6 p7 (parse_time_spec_format_time hh hm), rfl⟩
      · obtain ⟨q1, q2, q3, q4, q5, q6, q7, q8⟩ := ord_kw_props dy hd1 hd31
        simp only [ordSchedule] at hd ⊢
        cases hd
        exact ⟨_, ext_ord_core q1 q2 q3 q4 q5 q6 q7 q8 (parse_time_spec_format_time hh hm), rfl⟩
    | none =>
      cases hspec : parse_special (trim s) with
      | some sp =>
        simp only [hspec] at h
        cases h
        exact special_roundtrip hspec hd
      | none =>
        simp only [hspec] at h
        split at h
        · cases hchk : check_incomplete (trim s) with
          | error e => simp only [hchk] at h; cases h
          | ok u =>
            simp only [hchk] at h
            rw [parse_standard_display h] at hd
            cases hd
        · rw [parse_standard_display h] at hd
          cases hd

/-- C2, witness: `@monday/9:00` parses with display `@mon/9`, and that
display re-parses to the same calendar expression. -/
theorem c2_witness :
    ∃ sch2, parse (strL "@mon/9") = .ok sch2 ∧
      sch2.on_calendar = some (strL "Mon *-*-* 09:00:00") := by
  have hx := c2_roundtrip (strL "@monday/9:00")
    ⟨some (strL "Mon *-*-* 09:00:00"), none, false, some (strL "@mon/9")⟩
    (strL "@mon/9") (by decide) rfl
  simpa using hx

end Cron

